import Mathlib

/-!
Shallow embedding of the stock-cutting optimization engine in
`src/pages/helper_num_core.py` (functions `_decimal_scale_factor`,
`_generate_all_patterns`, `optimize_unlimited_stock_gg`), together with
theorems settling the specification claims about it.

Numeric model: the engine converts its float inputs to `Decimal(str(x))`
and then works with exact decimal arithmetic.  A finite decimal is
represented here as a mantissa/exponent pair (`Dec`), exactly as Python's
`Decimal` stores it; its rational value is `mant * 10 ^ exp`.  The
OR-Tools CBC backend is external to the repository; it is modelled by
`solveCutting`, an exhaustive search realising the backend's documented
contract (a returned `OPTIMAL` solution is a certified-optimal integer
solution), and the pipeline is parameterised by the solver so that the
non-`OPTIMAL` status branch can also be analysed.
-/

set_option linter.unusedVariables false

/-- A finite decimal number, as stored by Python's `Decimal`:
the value is `mant * 10 ^ exp`. -/
structure Dec where
  mant : Int
  exp : Int
deriving DecidableEq

/-- Rational value of a decimal. -/
def Dec.val (d : Dec) : ℚ :=
  Rat.divInt (d.mant * 10 ^ d.exp.toNat) (10 ^ (-d.exp).toNat)

/-- Exact decimal addition: mantissas are aligned at the smaller exponent,
as Python's `Decimal.__add__` does (exactly, within its precision). -/
def Dec.add (a b : Dec) : Dec :=
  ⟨a.mant * 10 ^ (a.exp - min a.exp b.exp).toNat +
     b.mant * 10 ^ (b.exp - min a.exp b.exp).toNat,
   min a.exp b.exp⟩

/-- Truncation toward zero, the behaviour of Python's `int(...)` coercion
applied to the demand quantity (`q = int(d["quantity"])`). -/
def Dec.trunc (d : Dec) : ℤ :=
  if 0 ≤ d.exp then d.mant * 10 ^ d.exp.toNat
  else d.mant.tdiv (10 ^ (-d.exp).toNat)

/-- Round-half-up division `m / n` for `n > 0` (halves are rounded away
from zero), the integer core of `Decimal.to_integral_value(ROUND_HALF_UP)`. -/
def halfUpDiv (m n : ℤ) : ℤ :=
  if 0 ≤ m then (2 * m + n) / (2 * n) else -((2 * (-m) + n) / (2 * n))

/-- Translation of `int((d * 10^K).to_integral_value(rounding="ROUND_HALF_UP"))`:
multiply a decimal by `10 ^ K` and round half-up to an integer.
When `0 ≤ exp + K` the product is already an integer and no rounding
happens. -/
def Dec.scaleRound (d : Dec) (K : ℕ) : ℤ :=
  if 0 ≤ d.exp + K then d.mant * 10 ^ (d.exp + K).toNat
  else halfUpDiv d.mant (10 ^ (-(d.exp + K)).toNat)

/-- The exponent `k` computed by `_decimal_scale_factor`: the running
maximum of `-v.as_tuple().exponent` over the values, starting from `0`. -/
def scaleExpOf (values : List Dec) : ℕ :=
  (values.foldl (fun (k : ℤ) (v : Dec) => max k (-v.exp)) 0).toNat

/-- Translation of `_decimal_scale_factor` (helper_num_core.py:28-50):
returns `10 ^ k` where `k` is the maximum number of fractional digits. -/
def _decimal_scale_factor (values : List Dec) : ℕ :=
  10 ^ scaleExpOf values

/-- The recursive DFS of `_generate_all_patterns` (helper_num_core.py:76-88):
each element of `pairs` is `(widths[i], max_counts[i])`; at index `i` the
count `c` ranges over `0 .. min(max_counts[i], remaining // widths[i])` and
the search recurses with the capacity reduced by `c * widths[i]`. -/
def dfsPatterns : List (ℕ × ℕ) → ℕ → List (List ℕ)
  | [], _ => [[]]
  | (w, mc) :: rest, remaining =>
    (List.range (min mc (remaining / w) + 1)).flatMap fun c =>
      (dfsPatterns rest (remaining - c * w)).map fun tail => c :: tail

/-- Translation of `_generate_all_patterns` (helper_num_core.py:53-91):
`max_counts = [L // w for w in widths]`, DFS from capacity `L`, keeping
only the completed assignments with at least one positive count. -/
def _generate_all_patterns (L : ℕ) (widths : List ℕ) : List (List ℕ) :=
  (dfsPatterns (widths.map fun w => (w, L / w)) L).filter fun p =>
    p.any fun c => decide (0 < c)

/-- Quantity `sum(p[i] * widths[i])`: scaled length occupied by the pieces of a
pattern. -/
def weight (p widths : List ℕ) : ℕ :=
  ((p.zip widths).map fun t => t.1 * t.2).sum

/-- The single-item pattern: one piece of item `i`, zero of all others. -/
def unitVec (m i : ℕ) : List ℕ :=
  (List.range m).map fun j => if j = i then 1 else 0

/-- Quantity `sum(patterns[j][i] * x[j] for j in range(len(patterns)))`: number of
pieces of item `i` produced by multiplicities `x`. -/
def prodAt (patterns : List (List ℕ)) (x : List ℕ) (i : ℕ) : ℕ :=
  ((patterns.zip x).map fun pc => pc.1.getD i 0 * pc.2).sum

/-- The demand-coverage constraint of the integer program
(helper_num_core.py:231-232): every demand line is produced at least
`qty[i]` times. -/
def Covers (patterns : List (List ℕ)) (qty : List ℕ) (x : List ℕ) : Prop :=
  ∀ i, i < qty.length → qty.getD i 0 ≤ prodAt patterns x i

instance coversDecidable (patterns : List (List ℕ)) (qty x : List ℕ) :
    Decidable (Covers patterns qty x) :=
  Nat.decidableBallLT qty.length fun i _ => qty.getD i 0 ≤ prodAt patterns x i

/-- All lists of `n` naturals summing to `t`. -/
def compositions : ℕ → ℕ → List (List ℕ)
  | 0, 0 => [[]]
  | 0, _ + 1 => []
  | n + 1, t =>
    (List.range (t + 1)).flatMap fun c =>
      (compositions n (t - c)).map fun tail => c :: tail

/-- First covering multiplicity vector with total `t`, if any. -/
def solveAt (patterns : List (List ℕ)) (qty : List ℕ) (t : ℕ) : Option (List ℕ) :=
  (compositions patterns.length t).find? fun x => decide (Covers patterns qty x)

/-- Search total multiplicities `t, t+1, ...` (up to `fuel` rounds) for a
covering vector; returns the first (hence minimum-total) one found. -/
def findCover (patterns : List (List ℕ)) (qty : List ℕ) : ℕ → ℕ → Option (List ℕ)
  | _, 0 => none
  | t, fuel + 1 =>
    match solveAt patterns qty t with
    | some x => some x
    | none => findCover patterns qty (t + 1) fuel

/-- Model of the external OR-Tools CBC integer-program backend
(helper_num_core.py:222-242): minimize `sum(x)` subject to the coverage
constraints over non-negative integer multiplicities.  CBC's contract is
that an `OPTIMAL` status certifies a proven-optimal integer solution; the
model realises it by exhaustive search in increasing order of the
objective, so a returned vector is a certified minimum-total covering. -/
def solveCutting (patterns : List (List ℕ)) (qty : List ℕ) : Option (List ℕ) :=
  findCover patterns qty 0 (patterns.length * qty.sum + 1)

/-- A solving backend: from the pattern matrix and the demand quantities to
an optimal multiplicity vector, or `none` when the solve terminates without
a proven-optimal solution (`status != pywraplp.Solver.OPTIMAL`). -/
abbrev Solver := List (List ℕ) → List ℕ → Option (List ℕ)

/-- A backend whose solve never reaches a proven optimum: models the
`status != pywraplp.Solver.OPTIMAL` outcome of `solver.Solve()`. -/
def noSolver : Solver := fun _ _ => none

/-- The error outcomes raised by `optimize_unlimited_stock_gg`:
`ValueError` for bad configuration values, `ValueError` for an oversized
item (line 208), `RuntimeError` for the post-solve feasibility re-check
(line 267).  (`RuntimeError` for an unavailable backend, line 224, is
outside the solver-parameterised model.) -/
inductive Err where
  | invalidConfiguration
  | oversizedItem
  | internalConsistency
deriving DecidableEq

/-- One entry of the cutting plan: the pattern as a width-value ↦ count
mapping (insertion order = demand order, zero counts omitted), and the
number of cores cut with it. -/
structure PlanEntry where
  pattern : List (ℚ × ℕ)
  count : ℕ
deriving DecidableEq

/-- The result dictionary of a successful optimization. -/
structure Result where
  cores_required : ℕ
  total_waste : ℚ
  total_waste_percent : ℚ
  cutting_plan : List PlanEntry
deriving DecidableEq

/-- One demand line as received by the engine: a width and a quantity
(both arbitrary finite decimals; the quantity is coerced with `int(...)`). -/
structure Demand where
  width : Dec
  quantity : Dec
deriving DecidableEq

/-- The per-demand validation of lines 157-163: `width <= 0` or
`int(quantity) < 0` raises `ValueError`. -/
def demandInvalid (d : Demand) : Bool :=
  decide (d.width.val ≤ 0) || decide (d.quantity.trunc < 0)

/-- The parsed width list `widths_f`. -/
def parsedWidths (demands : List Demand) : List Dec :=
  demands.map fun d => d.width

/-- The parsed quantity list `qty`, `int(d["quantity"])` for each line
(non-negative once validation has passed). -/
def parsedQty (demands : List Demand) : List ℕ :=
  demands.map fun d => d.quantity.trunc.toNat

/-- The list `[L_eff_dec, k_dec] + w_eff_dec` of decimal magnitudes handed to
`_decimal_scale_factor` (line 194). -/
def pipelineVals (master kerf : Dec) (demands : List Demand) : List Dec :=
  [master.add kerf, kerf] ++ (parsedWidths demands).map fun w => w.add kerf

/-- The exponent of the engine's scale factor. -/
def pipelineK (master kerf : Dec) (demands : List Demand) : ℕ :=
  scaleExpOf (pipelineVals master kerf demands)

/-- Value `scale` (line 194). -/
def pipelineScale (master kerf : Dec) (demands : List Demand) : ℕ :=
  _decimal_scale_factor (pipelineVals master kerf demands)

/-- Value `L_eff` (line 197). -/
def effL (master kerf : Dec) (demands : List Demand) : ℕ :=
  ((master.add kerf).scaleRound (pipelineK master kerf demands)).toNat

/-- Value `widths_eff` (line 198). -/
def effWidths (master kerf : Dec) (demands : List Demand) : List ℕ :=
  (parsedWidths demands).map fun w =>
    ((w.add kerf).scaleRound (pipelineK master kerf demands)).toNat

/-- Value `L` (line 201). -/
def rawL (master kerf : Dec) (demands : List Demand) : ℕ :=
  (master.scaleRound (pipelineK master kerf demands)).toNat

/-- Value `widths` (line 202). -/
def rawWidths (master kerf : Dec) (demands : List Demand) : List ℕ :=
  (parsedWidths demands).map fun w =>
    (w.scaleRound (pipelineK master kerf demands)).toNat

/-- Value `k` (line 203). -/
def rawKerf (master kerf : Dec) (demands : List Demand) : ℕ :=
  (kerf.scaleRound (pipelineK master kerf demands)).toNat

/-- Value `patterns = _generate_all_patterns(L_eff, widths_eff)` (line 215). -/
def pipelinePatterns (master kerf : Dec) (demands : List Demand) : List (List ℕ) :=
  _generate_all_patterns (effL master kerf demands) (effWidths master kerf demands)

/-- Mapping `pattern_dict` (lines 272-275): original width value ↦ count, in
demand order, positive counts only. -/
def patternDict (widths_f : List Dec) (pat : List ℕ) : List (ℚ × ℕ) :=
  ((widths_f.zip pat).filter fun wc => decide (0 < wc.2)).map fun wc =>
    (wc.1.val, wc.2)

/-- Value `used_total_int` for a pattern (lines 260-263):
`sum(pat[i] * widths[i]) + max(0, n - 1) * k`. -/
def usedLen (widths : List ℕ) (k : ℕ) (pat : List ℕ) : ℕ :=
  ((pat.zip widths).map fun t => t.1 * t.2).sum + (pat.sum - 1) * k

/-- The plan-building loop (lines 253-280): skip zero multiplicities,
re-check feasibility (raising `RuntimeError` on violation, line 267),
accumulate the plan entries and the total consumed scaled length. -/
def buildPlan (widths_f : List Dec) (widths : List ℕ) (k L : ℕ) :
    List (List ℕ × ℕ) → Except Err (List PlanEntry × ℕ)
  | [] => .ok ([], 0)
  | (pat, count) :: rest =>
    if count = 0 then buildPlan widths_f widths k L rest
    else if L < usedLen widths k pat then .error .internalConsistency
    else
      match buildPlan widths_f widths k L rest with
      | .error e => .error e
      | .ok pc =>
        .ok (⟨patternDict widths_f pat, count⟩ :: pc.1,
          usedLen widths k pat * count + pc.2)

/-- STEP 6 (lines 286-296): waste metrics from the scaled integers.
`total_waste = waste_int / scale`, `total_used = cores * L / scale`,
`total_waste_percent = total_waste / total_used * 100` when
`total_used > 0`, else `0`. -/
def mkResult (cores L consumed scale : ℕ) (plan : List PlanEntry) : Result :=
  { cores_required := cores
    total_waste := Rat.divInt (((cores * L : ℕ) : ℤ) - (consumed : ℤ)) (scale : ℤ)
    total_waste_percent :=
      if 0 < Rat.divInt (((cores * L : ℕ) : ℤ)) (scale : ℤ) then
        Rat.divInt (((cores * L : ℕ) : ℤ) - (consumed : ℤ)) (scale : ℤ) /
          Rat.divInt (((cores * L : ℕ) : ℤ)) (scale : ℤ) * 100
      else 0
    cutting_plan := plan }

/-- Steps 1 (zero-demand short-circuit, lines 168-174), 2-3 (scaling and
pattern generation), the oversized check (lines 206-208), 4 (the solve,
returning the empty dict `{}` — modelled as `none` — when the status is
not `OPTIMAL`, lines 238-240), and 5-6 (plan build and waste metrics). -/
def optimizeCore (solver : Solver) (master kerf : Dec) (demands : List Demand) :
    Except Err (Option Result) :=
  if (parsedQty demands).sum = 0 then .ok (some ⟨0, 0, 0, []⟩)
  else if (rawWidths master kerf demands).any fun wi =>
      decide (rawL master kerf demands < wi) then
    .error .oversizedItem
  else
    match solver (pipelinePatterns master kerf demands) (parsedQty demands) with
    | none => .ok none
    | some x =>
      match buildPlan (parsedWidths demands) (rawWidths master kerf demands)
          (rawKerf master kerf demands) (rawL master kerf demands)
          ((pipelinePatterns master kerf demands).zip x) with
      | .error e => .error e
      | .ok pc =>
        .ok (some (mkResult x.sum (rawL master kerf demands) pc.2
          (pipelineScale master kerf demands) pc.1))

/-- Translation of `optimize_unlimited_stock_gg` (helper_num_core.py:100-296),
parameterised by the solving backend.  Input validation (lines 149-163)
first, then the core pipeline. -/
def optimize_unlimited_stock_gg (solver : Solver) (master_length : Dec)
    (demands : List Demand) (kerf : Dec) : Except Err (Option Result) :=
  if master_length.val ≤ 0 then .error .invalidConfiguration
  else if kerf.val < 0 then .error .invalidConfiguration
  else if demands.any demandInvalid then .error .invalidConfiguration
  else optimizeCore solver master_length kerf demands

/-- Real-valued length of the pieces recorded in a plan entry
(`Σ width * count` over the entry's mapping). -/
def entryPieces (e : PlanEntry) : ℚ :=
  (e.pattern.map fun wc => wc.1 * (wc.2 : ℚ)).sum

/-- Number of pieces recorded in a plan entry. -/
def entryCount (e : PlanEntry) : ℕ :=
  (e.pattern.map fun wc => wc.2).sum

/-- The amount `pieces_length + kerf_loss` of one core cut with this entry's pattern:
the real-valued material consumed, `Σ width*count + max(0, n-1) * kerf`. -/
def entryUsed (kerfVal : ℚ) (e : PlanEntry) : ℚ :=
  entryPieces e + ((entryCount e - 1 : ℕ) : ℚ) * kerfVal

/-- Number of fractional decimal digits of a stored decimal, per the
spec's words: `max 0 (-exponent)`. -/
def fracDigits (d : Dec) : ℕ := (-d.exp).toNat

/-- Modelled from the spec's words ("10 raised to the maximum number of
fractional decimal digits occurring among those magnitudes"): the
spec-side scale factor, to be compared with `_decimal_scale_factor`. -/
def specMaxFracDigits (values : List Dec) : ℕ :=
  (values.map fracDigits).foldr max 0

/-! ### Exact-decimal lemmas -/

theorem ten_pow_toNat (n : ℤ) (h : 0 ≤ n) : ((10 : ℚ) ^ n.toNat) = (10 : ℚ) ^ n := by
  rw [← zpow_natCast (10 : ℚ) n.toNat, Int.toNat_of_nonneg h]

theorem ten_ne_zero : (10 : ℚ) ≠ 0 := by norm_num

theorem Dec.val_zpow (d : Dec) : d.val = (d.mant : ℚ) * (10 : ℚ) ^ d.exp := by
  rw [Dec.val, Rat.divInt_eq_div]
  rcases le_or_lt 0 d.exp with h | h
  · have h0 : (-d.exp).toNat = 0 := by omega
    rw [h0]
    push_cast
    rw [ten_pow_toNat d.exp h]
    simp
  · have h2 : d.exp.toNat = 0 := by omega
    rw [h2]
    push_cast
    rw [ten_pow_toNat (-d.exp) (by omega), zpow_neg]
    field_simp

theorem Dec.add_val (a b : Dec) : (a.add b).val = a.val + b.val := by
  rw [Dec.val_zpow, Dec.val_zpow, Dec.val_zpow, Dec.add]
  push_cast
  rw [ten_pow_toNat (a.exp - min a.exp b.exp) (by omega),
    ten_pow_toNat (b.exp - min a.exp b.exp) (by omega)]
  rw [add_mul, mul_assoc, mul_assoc, ← zpow_add₀ ten_ne_zero, ← zpow_add₀ ten_ne_zero,
    sub_add_cancel, sub_add_cancel]

theorem Dec.scaleRound_int (d : Dec) (K : ℕ) (h : -d.exp ≤ (K : ℤ)) :
    d.scaleRound K = d.mant * 10 ^ (d.exp + K).toNat := by
  rw [Dec.scaleRound, if_pos (by omega)]

theorem Dec.scaleRound_val (d : Dec) (K : ℕ) (h : -d.exp ≤ (K : ℤ)) :
    ((d.scaleRound K : ℤ) : ℚ) = d.val * (10 : ℚ) ^ K := by
  rw [Dec.scaleRound_int d K h, Dec.val_zpow]
  push_cast
  rw [ten_pow_toNat (d.exp + K) (by omega), mul_assoc, ← zpow_natCast (10 : ℚ) K,
    ← zpow_add₀ ten_ne_zero]

theorem Dec.scaleRound_nonneg (d : Dec) (K : ℕ) (h : -d.exp ≤ (K : ℤ))
    (hv : 0 ≤ d.val) : 0 ≤ d.scaleRound K := by
  have h1 : (0 : ℚ) ≤ ((d.scaleRound K : ℤ) : ℚ) := by
    rw [Dec.scaleRound_val d K h]
    positivity
  exact_mod_cast h1

theorem Dec.scaleRound_toNat_val (d : Dec) (K : ℕ) (h : -d.exp ≤ (K : ℤ))
    (hv : 0 ≤ d.val) : (((d.scaleRound K).toNat : ℕ) : ℚ) = d.val * (10 : ℚ) ^ K := by
  have h1 : (((d.scaleRound K).toNat : ℤ)) = d.scaleRound K :=
    Int.toNat_of_nonneg (Dec.scaleRound_nonneg d K h hv)
  rw [← Dec.scaleRound_val d K h, ← h1]
  push_cast
  rfl

/-! ### Scale-factor lemmas -/

theorem foldl_max_init_le (vals : List Dec) : ∀ i : ℤ,
    i ≤ vals.foldl (fun (k : ℤ) (v : Dec) => max k (-v.exp)) i := by
  induction vals with
  | nil => intro i; simp
  | cons w ws ih =>
    intro i
    exact le_trans (le_max_left _ _) (ih (max i (-w.exp)))

theorem le_foldl_max (vals : List Dec) (v : Dec) (hv : v ∈ vals) : ∀ i : ℤ,
    -v.exp ≤ vals.foldl (fun (k : ℤ) (v : Dec) => max k (-v.exp)) i := by
  induction vals with
  | nil => cases hv
  | cons w ws ih =>
    intro i
    rcases List.mem_cons.mp hv with h | h
    · subst h
      exact le_trans (le_max_right _ _) (foldl_max_init_le ws (max i (-v.exp)))
    · exact ih h (max i (-w.exp))

theorem scaleExpOf_bound (vals : List Dec) (v : Dec) (hv : v ∈ vals) :
    -v.exp ≤ (scaleExpOf vals : ℤ) := by
  rw [scaleExpOf, Int.toNat_of_nonneg (foldl_max_init_le vals 0)]
  exact le_foldl_max vals v hv 0

/-! ### Pipeline scale bounds -/

theorem pipelineK_master_add (m k : Dec) (ds : List Demand) :
    -(m.add k).exp ≤ (pipelineK m k ds : ℤ) :=
  scaleExpOf_bound _ _ (by simp [pipelineVals])

theorem pipelineK_kerf (m k : Dec) (ds : List Demand) :
    -k.exp ≤ (pipelineK m k ds : ℤ) :=
  scaleExpOf_bound _ _ (by simp [pipelineVals])

theorem pipelineK_master (m k : Dec) (ds : List Demand) :
    -m.exp ≤ (pipelineK m k ds : ℤ) := by
  have h1 := pipelineK_master_add m k ds
  have h2 : (m.add k).exp = min m.exp k.exp := rfl
  omega

theorem pipelineK_width_add (m k : Dec) (ds : List Demand) (w : Dec)
    (hw : w ∈ parsedWidths ds) : -(w.add k).exp ≤ (pipelineK m k ds : ℤ) := by
  refine scaleExpOf_bound _ _ ?_
  rw [pipelineVals]
  simp only [List.mem_append, List.mem_cons, List.mem_map]
  right
  exact ⟨w, hw, rfl⟩

theorem pipelineK_width (m k : Dec) (ds : List Demand) (w : Dec)
    (hw : w ∈ parsedWidths ds) : -w.exp ≤ (pipelineK m k ds : ℤ) := by
  have h1 := pipelineK_width_add m k ds w hw
  have h2 : (w.add k).exp = min w.exp k.exp := rfl
  omega

/-! ### Values of the scaled pipeline integers -/

theorem rawL_val (m k : Dec) (ds : List Demand) (hm : 0 ≤ m.val) :
    ((rawL m k ds : ℕ) : ℚ) = m.val * (10 : ℚ) ^ pipelineK m k ds :=
  Dec.scaleRound_toNat_val m _ (pipelineK_master m k ds) hm

theorem rawKerf_val (m k : Dec) (ds : List Demand) (hk : 0 ≤ k.val) :
    ((rawKerf m k ds : ℕ) : ℚ) = k.val * (10 : ℚ) ^ pipelineK m k ds :=
  Dec.scaleRound_toNat_val k _ (pipelineK_kerf m k ds) hk

theorem rawWidths_val (m k : Dec) (ds : List Demand) (w : Dec)
    (hw : w ∈ parsedWidths ds) (h0 : 0 ≤ w.val) :
    (((w.scaleRound (pipelineK m k ds)).toNat : ℕ) : ℚ) =
      w.val * (10 : ℚ) ^ pipelineK m k ds :=
  Dec.scaleRound_toNat_val w _ (pipelineK_width m k ds w hw) h0

theorem effL_split (m k : Dec) (ds : List Demand) (hm : 0 ≤ m.val) (hk : 0 ≤ k.val) :
    effL m k ds = rawL m k ds + rawKerf m k ds := by
  rw [effL, rawL, rawKerf]
  have hsum : (m.add k).scaleRound (pipelineK m k ds) =
      m.scaleRound (pipelineK m k ds) + k.scaleRound (pipelineK m k ds) := by
    have h1 : (((m.add k).scaleRound (pipelineK m k ds) : ℤ) : ℚ) =
        ((m.scaleRound (pipelineK m k ds) + k.scaleRound (pipelineK m k ds) : ℤ) : ℚ) := by
      push_cast
      rw [Dec.scaleRound_val _ _ (pipelineK_master_add m k ds),
        Dec.scaleRound_val _ _ (pipelineK_master m k ds),
        Dec.scaleRound_val _ _ (pipelineK_kerf m k ds), Dec.add_val, add_mul]
    exact_mod_cast h1
  rw [hsum, Int.toNat_add (Dec.scaleRound_nonneg m _ (pipelineK_master m k ds) hm)
    (Dec.scaleRound_nonneg k _ (pipelineK_kerf m k ds) hk)]

theorem effWidths_split (m k : Dec) (ds : List Demand) (hk : 0 ≤ k.val)
    (h3 : ∀ w ∈ parsedWidths ds, 0 ≤ w.val) :
    effWidths m k ds = (rawWidths m k ds).map fun wi => wi + rawKerf m k ds := by
  rw [effWidths, rawWidths, List.map_map]
  refine List.map_congr_left fun w hw => ?_
  show ((w.add k).scaleRound (pipelineK m k ds)).toNat =
    (w.scaleRound (pipelineK m k ds)).toNat + rawKerf m k ds
  have hsum : (w.add k).scaleRound (pipelineK m k ds) =
      w.scaleRound (pipelineK m k ds) + k.scaleRound (pipelineK m k ds) := by
    have h1 : (((w.add k).scaleRound (pipelineK m k ds) : ℤ) : ℚ) =
        ((w.scaleRound (pipelineK m k ds) + k.scaleRound (pipelineK m k ds) : ℤ) : ℚ) := by
      push_cast
      rw [Dec.scaleRound_val _ _ (pipelineK_width_add m k ds w hw),
        Dec.scaleRound_val _ _ (pipelineK_width m k ds w hw),
        Dec.scaleRound_val _ _ (pipelineK_kerf m k ds), Dec.add_val, add_mul]
    exact_mod_cast h1
  rw [hsum, rawKerf, Int.toNat_add (Dec.scaleRound_nonneg w _ (pipelineK_width m k ds w hw) (h3 w hw))
    (Dec.scaleRound_nonneg k _ (pipelineK_kerf m k ds) hk)]

theorem rawL_pos (m k : Dec) (ds : List Demand) (hm : 0 < m.val) :
    0 < rawL m k ds := by
  by_contra h
  have h0 : rawL m k ds = 0 := by omega
  have h1 := rawL_val m k ds (le_of_lt hm)
  rw [h0] at h1
  have h2 : (0 : ℚ) < m.val * (10 : ℚ) ^ pipelineK m k ds := by positivity
  rw [← h1] at h2
  simp at h2

theorem rawWidth_pos (m k : Dec) (ds : List Demand) (w : Dec)
    (hw : w ∈ parsedWidths ds) (h0 : 0 < w.val) :
    0 < (w.scaleRound (pipelineK m k ds)).toNat := by
  by_contra h
  have hz : (w.scaleRound (pipelineK m k ds)).toNat = 0 := by omega
  have h1 := rawWidths_val m k ds w hw (le_of_lt h0)
  rw [hz] at h1
  have h2 : (0 : ℚ) < w.val * (10 : ℚ) ^ pipelineK m k ds := by positivity
  rw [← h1] at h2
  simp at h2

/-! ### Pattern-enumerator lemmas -/

theorem weight_cons (c : ℕ) (p : List ℕ) (w : ℕ) (ws : List ℕ) :
    weight (c :: p) (w :: ws) = c * w + weight p ws := rfl

theorem weight_eq_zero (p : List ℕ) : ∀ ws : List ℕ, (∀ c ∈ p, c = 0) →
    weight p ws = 0 := by
  induction p with
  | nil => intro ws h; rfl
  | cons c tail ih =>
    intro ws h
    cases ws with
    | nil => rfl
    | cons w rest =>
      rw [weight_cons, h c (by simp), ih rest fun x hx => h x (by simp [hx])]
      omega

theorem mem_dfsPatterns (ps : List (ℕ × ℕ)) : ∀ (r : ℕ) (p : List ℕ),
    (∀ q ∈ ps, 0 < q.1) →
    (p ∈ dfsPatterns ps r ↔
      weight p (ps.map Prod.fst) ≤ r ∧ List.Forall₂ (fun c q => c ≤ q.2) p ps) := by
  induction ps with
  | nil =>
    intro r p hpos
    simp only [dfsPatterns, List.mem_singleton, List.map_nil]
    constructor
    · rintro rfl
      exact ⟨by simp [weight], List.Forall₂.nil⟩
    · rintro ⟨-, h2⟩
      cases h2
      rfl
  | cons q rest ih =>
    intro r p hpos
    obtain ⟨w, mc⟩ := q
    have hw : 0 < w := hpos (w, mc) (by simp)
    simp only [dfsPatterns, List.mem_flatMap, List.mem_map, List.mem_range]
    constructor
    · rintro ⟨c, hc, tail, htail, rfl⟩
      have h1 := (ih (r - c * w) tail fun x hx => hpos x (List.mem_cons_of_mem _ hx)).mp htail
      have hcw : c * w ≤ r := by
        have h2 : c ≤ r / w := by omega
        exact (Nat.le_div_iff_mul_le hw).mp h2
      refine ⟨?_, List.Forall₂.cons (by simp; omega) h1.2⟩
      show weight (c :: tail) (w :: rest.map Prod.fst) ≤ r
      rw [weight_cons]
      have := h1.1
      omega
    · rintro ⟨h1, h2⟩
      cases h2 with
      | cons hhead htail =>
        rename_i c tail
        have h1 : c * w + weight tail (rest.map Prod.fst) ≤ r := h1
        have hcw : c * w ≤ r := by omega
        have hcd : c ≤ r / w := (Nat.le_div_iff_mul_le hw).mpr hcw
        refine ⟨c, by simp at hhead; omega, tail, ?_, rfl⟩
        rw [ih (r - c * w) tail fun x hx => hpos x (List.mem_cons_of_mem _ hx)]
        exact ⟨by omega, htail⟩

theorem dfsPatterns_nodup : ∀ (ps : List (ℕ × ℕ)) (r : ℕ), (dfsPatterns ps r).Nodup := by
  intro ps
  induction ps with
  | nil => intro r; simp [dfsPatterns]
  | cons q rest ih =>
    intro r
    obtain ⟨w, mc⟩ := q
    rw [dfsPatterns, List.nodup_flatMap]
    constructor
    · intro c hc
      exact (ih (r - c * w)).map fun t1 t2 ht => by injection ht
    · refine List.Pairwise.imp ?_ (List.nodup_range (min mc (r / w) + 1))
      intro c1 c2 hne p hp1 hp2
      simp only [List.mem_map] at hp1 hp2
      obtain ⟨t1, -, rfl⟩ := hp1
      obtain ⟨t2, -, h⟩ := hp2
      injection h with he hte
      exact hne he.symm

theorem forall2_of_weight_le : ∀ (ws p : List ℕ) (L : ℕ), (∀ w ∈ ws, 0 < w) →
    p.length = ws.length → weight p ws ≤ L →
    List.Forall₂ (fun c q => c ≤ q.2) p (ws.map fun w => (w, L / w)) := by
  intro ws
  induction ws with
  | nil =>
    intro p L hpos hl hwt
    rw [List.eq_nil_of_length_eq_zero hl]
    exact List.Forall₂.nil
  | cons w rest ih =>
    intro p L hpos hl hwt
    cases p with
    | nil => simp at hl
    | cons c tail =>
      rw [weight_cons] at hwt
      rw [List.map_cons]
      have hw : 0 < w := hpos w (by simp)
      refine List.Forall₂.cons ?_
        (ih tail L (fun x hx => hpos x (by simp [hx])) (by simpa using hl) (by omega))
      show c ≤ L / w
      exact (Nat.le_div_iff_mul_le hw).mpr (by omega)

theorem map_fst_pairs (L : ℕ) : ∀ l : List ℕ,
    (l.map fun w => (w, L / w)).map Prod.fst = l := by
  intro l
  induction l with
  | nil => rfl
  | cons a t ih => rw [List.map_cons, List.map_cons, ih]

theorem mem_generate_all_patterns (L : ℕ) (ws : List ℕ) (hw : ∀ w ∈ ws, 0 < w)
    (p : List ℕ) :
    p ∈ _generate_all_patterns L ws ↔
      p.length = ws.length ∧ weight p ws ≤ L ∧ ∃ c ∈ p, 0 < c := by
  have hmapfst : (ws.map fun w => (w, L / w)).map Prod.fst = ws := map_fst_pairs L ws
  have hpos : ∀ q ∈ ws.map fun w => (w, L / w), 0 < q.1 := by
    intro q hq
    obtain ⟨w, hwm, rfl⟩ := List.mem_map.mp hq
    exact hw w hwm
  rw [_generate_all_patterns, List.mem_filter, mem_dfsPatterns _ _ _ hpos, hmapfst]
  constructor
  · rintro ⟨⟨h1, h2⟩, h3⟩
    refine ⟨?_, h1, by simpa using h3⟩
    rw [h2.length_eq]
    simp
  · rintro ⟨h1, h2, h3⟩
    exact ⟨⟨h2, forall2_of_weight_le ws p L hw h1 h2⟩, by simpa using h3⟩

theorem generate_all_patterns_nodup (L : ℕ) (ws : List ℕ) :
    (_generate_all_patterns L ws).Nodup :=
  (dfsPatterns_nodup _ L).filter _

/-! ### Unit-vector lemmas -/

theorem unitVec_length (m i : ℕ) : (unitVec m i).length = m := by
  simp [unitVec]

theorem unitVec_succ_zero (n : ℕ) : unitVec (n + 1) 0 = 1 :: List.replicate n 0 := by
  rw [unitVec, List.range_succ_eq_map, List.map_cons, List.map_map]
  rw [if_pos rfl]
  congr 1
  rw [show ((fun j => if j = 0 then 1 else 0) ∘ fun j : ℕ => j + 1) = fun j : ℕ => (0 : ℕ) by
    funext j; simp]
  rw [List.map_const']
  simp

theorem unitVec_succ_succ (n i : ℕ) : unitVec (n + 1) (i + 1) = 0 :: unitVec n i := by
  rw [unitVec, List.range_succ_eq_map, List.map_cons, List.map_map, unitVec]
  rw [if_neg (by omega : ¬ (0 = i + 1))]
  congr 1
  refine List.map_congr_left fun j hj => ?_
  show (if j + 1 = i + 1 then 1 else 0) = if j = i then 1 else 0
  exact if_congr (by omega) rfl rfl

theorem unitVec_getD (m i : ℕ) (h : i < m) : (unitVec m i).getD i 0 = 1 := by
  induction m generalizing i with
  | zero => omega
  | succ n ih =>
    cases i with
    | zero => rw [unitVec_succ_zero]; rfl
    | succ j => rw [unitVec_succ_succ, List.getD_cons_succ]; exact ih j (by omega)

theorem unitVec_has_pos (m i : ℕ) (h : i < m) : ∃ c ∈ unitVec m i, 0 < c := by
  refine ⟨1, ?_, one_pos⟩
  rw [unitVec]
  exact List.mem_map.mpr ⟨i, List.mem_range.mpr h, by simp⟩

theorem weight_unitVec : ∀ (ws : List ℕ) (i : ℕ), i < ws.length →
    weight (unitVec ws.length i) ws = ws.getD i 0 := by
  intro ws
  induction ws with
  | nil => intro i h; simp at h
  | cons w rest ih =>
    intro i h
    cases i with
    | zero =>
      rw [List.length_cons, unitVec_succ_zero, weight_cons,
        weight_eq_zero _ _ fun c hc => (List.eq_of_mem_replicate hc), List.getD_cons_zero]
      omega
    | succ j =>
      rw [List.length_cons, unitVec_succ_succ, weight_cons, List.getD_cons_succ]
      have := ih j (by simpa using h)
      omega

theorem unitVec_mem_generate (L : ℕ) (ws : List ℕ) (hw : ∀ w ∈ ws, 0 < w)
    (i : ℕ) (hi : i < ws.length) (hfit : ws.getD i 0 ≤ L) :
    unitVec ws.length i ∈ _generate_all_patterns L ws := by
  rw [mem_generate_all_patterns L ws hw]
  exact ⟨unitVec_length _ _, by rw [weight_unitVec ws i hi]; exact hfit,
    unitVec_has_pos _ _ hi⟩

/-! ### Solver-model lemmas -/

theorem mem_compositions : ∀ (n t : ℕ) (x : List ℕ),
    x ∈ compositions n t ↔ x.length = n ∧ x.sum = t := by
  intro n
  induction n with
  | zero =>
    intro t x
    cases t with
    | zero =>
      simp only [compositions, List.mem_singleton]
      constructor
      · rintro rfl
        exact ⟨rfl, rfl⟩
      · rintro ⟨h1, h2⟩
        exact List.eq_nil_of_length_eq_zero h1
    | succ t =>
      simp only [compositions, List.not_mem_nil, false_iff, not_and]
      intro h1 h2
      rw [List.eq_nil_of_length_eq_zero h1] at h2
      simp at h2
  | succ n ih =>
    intro t x
    simp only [compositions, List.mem_flatMap, List.mem_map, List.mem_range]
    constructor
    · rintro ⟨c, hc, tail, htail, rfl⟩
      obtain ⟨hl, hs⟩ := (ih (t - c) tail).mp htail
      refine ⟨by simp [hl], ?_⟩
      rw [List.sum_cons, hs]
      omega
    · rintro ⟨h1, h2⟩
      cases x with
      | nil => simp at h1
      | cons c tail =>
        rw [List.sum_cons] at h2
        refine ⟨c, by omega, tail, ?_, rfl⟩
        rw [ih (t - c) tail]
        exact ⟨by simpa using h1, by omega⟩

theorem solveAt_some (patterns : List (List ℕ)) (qty : List ℕ) (t : ℕ) (x : List ℕ)
    (h : solveAt patterns qty t = some x) :
    Covers patterns qty x ∧ x.length = patterns.length ∧ x.sum = t := by
  have h1 := List.find?_some h
  have h2 := List.mem_of_find?_eq_some h
  rw [decide_eq_true_eq] at h1
  obtain ⟨hl, hs⟩ := (mem_compositions _ _ _).mp h2
  exact ⟨h1, hl, hs⟩

theorem solveAt_none (patterns : List (List ℕ)) (qty : List ℕ) (t : ℕ)
    (h : solveAt patterns qty t = none) :
    ∀ y, y.length = patterns.length → y.sum = t → ¬Covers patterns qty y := by
  intro y hl hs hc
  have h2 := List.find?_eq_none.mp h y ((mem_compositions _ _ _).mpr ⟨hl, hs⟩)
  simp only [decide_eq_true_eq] at h2
  exact h2 hc

theorem findCover_some (patterns : List (List ℕ)) (qty : List ℕ) :
    ∀ (fuel t : ℕ) (x : List ℕ),
    findCover patterns qty t fuel = some x →
    Covers patterns qty x ∧ x.length = patterns.length ∧ t ≤ x.sum ∧
      ∀ s, t ≤ s → s < x.sum → solveAt patterns qty s = none := by
  intro fuel
  induction fuel with
  | zero =>
    intro t x h
    simp [findCover] at h
  | succ fuel ih =>
    intro t x h
    rw [findCover] at h
    split at h
    · rename_i x0 hsa
      have hx := Option.some.inj h
      subst hx
      obtain ⟨hc, hl, hs⟩ := solveAt_some _ _ _ _ hsa
      exact ⟨hc, hl, by omega, fun s h1 h2 => by omega⟩
    · rename_i hsa
      obtain ⟨hc, hl, hs, hnone⟩ := ih (t + 1) x h
      refine ⟨hc, hl, by omega, fun s h1 h2 => ?_⟩
      rcases Nat.eq_or_lt_of_le h1 with h3 | h3
      · rw [← h3]
        exact hsa
      · exact hnone s (by omega) h2

theorem findCover_none (patterns : List (List ℕ)) (qty : List ℕ) :
    ∀ (fuel t : ℕ),
    findCover patterns qty t fuel = none →
    ∀ s, t ≤ s → s < t + fuel → solveAt patterns qty s = none := by
  intro fuel
  induction fuel with
  | zero =>
    intro t h s h1 h2
    omega
  | succ fuel ih =>
    intro t h s h1 h2
    rw [findCover] at h
    split at h
    · exact absurd h (by simp)
    · rename_i hsa
      rcases Nat.eq_or_lt_of_le h1 with h3 | h3
      · rw [← h3]
        exact hsa
      · exact ih (t + 1) h s (by omega) (by omega)

theorem solveCutting_spec (patterns : List (List ℕ)) (qty : List ℕ) (x : List ℕ)
    (h : solveCutting patterns qty = some x) :
    Covers patterns qty x ∧ x.length = patterns.length ∧
      ∀ y, y.length = patterns.length → Covers patterns qty y → x.sum ≤ y.sum := by
  obtain ⟨hc, hl, -, hnone⟩ := findCover_some patterns qty _ 0 x h
  refine ⟨hc, hl, fun y hyl hyc => ?_⟩
  by_contra hlt
  push_neg at hlt
  exact solveAt_none patterns qty y.sum (hnone y.sum (Nat.zero_le _) hlt) y hyl rfl hyc

theorem solveCutting_isSome (patterns : List (List ℕ)) (qty : List ℕ) (y : List ℕ)
    (hyl : y.length = patterns.length) (hyc : Covers patterns qty y)
    (hyb : y.sum ≤ patterns.length * qty.sum) :
    ∃ x, solveCutting patterns qty = some x := by
  cases hx : solveCutting patterns qty with
  | some x => exact ⟨x, rfl⟩
  | none =>
    have h1 := findCover_none patterns qty _ 0 hx y.sum (Nat.zero_le _) (by omega)
    exact absurd hyc (solveAt_none patterns qty y.sum h1 y hyl rfl)

theorem sum_map_const_nat (patterns : List (List ℕ)) (Q : ℕ) :
    (patterns.map fun _ => Q).sum = patterns.length * Q := by
  rw [List.map_const', List.sum_replicate, smul_eq_mul]

theorem covers_const (patterns : List (List ℕ)) (qty : List ℕ)
    (hunit : ∀ i, i < qty.length → ∃ p ∈ patterns, 1 ≤ p.getD i 0) :
    Covers patterns qty (patterns.map fun _ => qty.sum) := by
  intro i hi
  obtain ⟨p0, hp0, hp1⟩ := hunit i hi
  have hzip : patterns.zip (patterns.map fun _ => qty.sum) =
      patterns.map fun p => (p, qty.sum) := by
    have h1 := List.zip_map' (fun p : List ℕ => p) (fun _ : List ℕ => qty.sum) patterns
    simpa using h1
  rw [prodAt, hzip, List.map_map]
  have hmem : p0.getD i 0 * qty.sum ∈ patterns.map
      ((fun pc : List ℕ × ℕ => pc.1.getD i 0 * pc.2) ∘ fun p => (p, qty.sum)) :=
    List.mem_map.mpr ⟨p0, hp0, rfl⟩
  have hle := List.le_sum_of_mem hmem
  have hq : qty.getD i 0 ≤ qty.sum := by
    rw [List.getD_eq_getElem qty 0 hi]
    exact List.le_sum_of_mem (List.getElem_mem hi)
  have hmul : qty.sum ≤ p0.getD i 0 * qty.sum := Nat.le_mul_of_pos_left _ hp1
  omega

/-! ### Pipeline support lemmas -/

theorem Dec.scaleRound_toNat_pos (d : Dec) (K : ℕ) (h : -d.exp ≤ (K : ℤ))
    (hv : 0 < d.val) : 0 < (d.scaleRound K).toNat := by
  by_contra hc
  have hz : (d.scaleRound K).toNat = 0 := by omega
  have h1 := Dec.scaleRound_toNat_val d K h (le_of_lt hv)
  rw [hz] at h1
  have h2 : (0 : ℚ) < d.val * (10 : ℚ) ^ K := by positivity
  rw [← h1] at h2
  simp at h2

theorem parsedWidths_length (ds : List Demand) :
    (parsedWidths ds).length = ds.length := by
  simp [parsedWidths]

theorem parsedQty_length (ds : List Demand) :
    (parsedQty ds).length = ds.length := by
  simp [parsedQty]

theorem effWidths_length (m k : Dec) (ds : List Demand) :
    (effWidths m k ds).length = ds.length := by
  simp [effWidths, parsedWidths]

theorem rawWidths_length (m k : Dec) (ds : List Demand) :
    (rawWidths m k ds).length = ds.length := by
  simp [rawWidths, parsedWidths]

theorem effWidths_pos (m k : Dec) (ds : List Demand) (hk : 0 ≤ k.val)
    (h3 : ∀ w ∈ parsedWidths ds, 0 < w.val) :
    ∀ we ∈ effWidths m k ds, 0 < we := by
  intro we hwe
  rw [effWidths] at hwe
  obtain ⟨w, hw, rfl⟩ := List.mem_map.mp hwe
  refine Dec.scaleRound_toNat_pos _ _ (pipelineK_width_add m k ds w hw) ?_
  rw [Dec.add_val]
  have h4 := h3 w hw
  linarith

theorem weight_map_add : ∀ (p ws : List ℕ) (k : ℕ), p.length = ws.length →
    weight p (ws.map fun w => w + k) = weight p ws + p.sum * k := by
  intro p
  induction p with
  | nil =>
    intro ws k h
    rw [List.eq_nil_of_length_eq_zero h.symm]
    simp [weight]
  | cons c tail ih =>
    intro ws k h
    cases ws with
    | nil => simp at h
    | cons w rest =>
      rw [List.map_cons, weight_cons, weight_cons, ih rest k (by simpa using h),
        List.sum_cons]
      ring

theorem pattern_sum_pos (p : List ℕ) (h : ∃ c ∈ p, 0 < c) : 1 ≤ p.sum := by
  obtain ⟨c, hc, hpos⟩ := h
  have h1 := List.le_sum_of_mem hc
  omega

theorem usedLen_le (m k : Dec) (ds : List Demand)
    (hm : 0 < m.val) (hk : 0 ≤ k.val) (h3 : ∀ w ∈ parsedWidths ds, 0 < w.val)
    (pat : List ℕ) (hp : pat ∈ pipelinePatterns m k ds) :
    usedLen (rawWidths m k ds) (rawKerf m k ds) pat ≤ rawL m k ds := by
  rw [pipelinePatterns,
    mem_generate_all_patterns _ _ (effWidths_pos m k ds hk h3)] at hp
  obtain ⟨hlen, hwt, hpos⟩ := hp
  rw [effWidths_split m k ds hk fun w hw => le_of_lt (h3 w hw),
    effL_split m k ds (le_of_lt hm) hk] at hwt
  have hlen2 : pat.length = (rawWidths m k ds).length := by
    rw [hlen, effWidths_length, rawWidths_length]
  rw [weight_map_add pat (rawWidths m k ds) (rawKerf m k ds) hlen2] at hwt
  have hone := pattern_sum_pos pat hpos
  rw [usedLen]
  show weight pat (rawWidths m k ds) + (pat.sum - 1) * rawKerf m k ds ≤ rawL m k ds
  obtain ⟨n0, hn0⟩ : ∃ n0, pat.sum = n0 + 1 := ⟨pat.sum - 1, by omega⟩
  rw [hn0] at hwt
  rw [hn0, Nat.succ_sub_one]
  rw [Nat.succ_mul] at hwt
  omega

theorem buildPlan_ok (wf : List Dec) (widths : List ℕ) (k L : ℕ) :
    ∀ entries : List (List ℕ × ℕ),
    (∀ e ∈ entries, usedLen widths k e.1 ≤ L) →
    ∃ plan consumed, buildPlan wf widths k L entries = .ok (plan, consumed) := by
  intro entries
  induction entries with
  | nil => exact fun _ => ⟨[], 0, rfl⟩
  | cons e rest ih =>
    intro h
    obtain ⟨pat, count⟩ := e
    obtain ⟨plan, consumed, hr⟩ := ih fun x hx => h x (List.mem_cons_of_mem _ hx)
    by_cases hc : count = 0
    · subst hc
      refine ⟨plan, consumed, ?_⟩
      rw [buildPlan, if_pos rfl]
      exact hr
    · refine ⟨⟨patternDict wf pat, count⟩ :: plan,
        usedLen widths k pat * count + consumed, ?_⟩
      rw [buildPlan, if_neg hc, if_neg (not_lt.mpr (h (pat, count) (by simp)))]
      rw [hr]

theorem not_any_demandInvalid (ds : List Demand)
    (hd : ∀ d ∈ ds, 0 < d.width.val ∧ 0 ≤ d.quantity.trunc) :
    ¬ ds.any demandInvalid = true := by
  rw [List.any_eq_true]
  push_neg
  intro d hdm
  have h1 := hd d hdm
  have hw : decide (d.width.val ≤ 0) = false := decide_eq_false (not_le.mpr h1.1)
  have hq : decide (d.quantity.trunc < 0) = false := decide_eq_false (not_lt.mpr h1.2)
  simp [demandInvalid, hw, hq]

theorem demand_valid_of_not_any (ds : List Demand)
    (h : ¬ ds.any demandInvalid = true) :
    ∀ d ∈ ds, 0 < d.width.val ∧ 0 ≤ d.quantity.trunc := by
  intro d hdm
  by_contra hcon
  apply h
  rw [List.any_eq_true]
  refine ⟨d, hdm, ?_⟩
  rw [demandInvalid, Bool.or_eq_true, decide_eq_true_eq, decide_eq_true_eq]
  rw [not_and_or] at hcon
  rcases hcon with h1 | h1
  · exact Or.inl (not_lt.mp h1)
  · exact Or.inr (not_le.mp h1)

theorem optimize_valid (solver : Solver) (m k : Dec) (ds : List Demand)
    (hm : 0 < m.val) (hk : 0 ≤ k.val)
    (hd : ∀ d ∈ ds, 0 < d.width.val ∧ 0 ≤ d.quantity.trunc) :
    optimize_unlimited_stock_gg solver m ds k = optimizeCore solver m k ds := by
  rw [optimize_unlimited_stock_gg, if_neg (not_le.mpr hm), if_neg (not_lt.mpr hk),
    if_neg (not_any_demandInvalid ds hd)]

/-! ### Success-path lemmas -/

theorem raw_le_of_not_any (m k : Dec) (ds : List Demand)
    (hov : ¬ ((rawWidths m k ds).any fun wi => decide (rawL m k ds < wi)) = true) :
    ∀ wi ∈ rawWidths m k ds, wi ≤ rawL m k ds := by
  intro wi hwi
  by_contra hlt
  apply hov
  rw [List.any_eq_true]
  exact ⟨wi, hwi, decide_eq_true (not_le.mp hlt)⟩

theorem oversized_false (m k : Dec) (ds : List Demand)
    (hm : 0 < m.val) (h3 : ∀ w ∈ parsedWidths ds, 0 < w.val)
    (h6 : ∀ w ∈ parsedWidths ds, w.val ≤ m.val) :
    ¬ ((rawWidths m k ds).any fun wi => decide (rawL m k ds < wi)) = true := by
  intro hany
  rw [List.any_eq_true] at hany
  obtain ⟨wi, hwi, hdec⟩ := hany
  rw [decide_eq_true_eq] at hdec
  rw [rawWidths] at hwi
  obtain ⟨w, hw, rfl⟩ := List.mem_map.mp hwi
  have h1 := rawWidths_val m k ds w hw (le_of_lt (h3 w hw))
  have h2 := rawL_val m k ds (le_of_lt hm)
  have h4 : (((w.scaleRound (pipelineK m k ds)).toNat : ℕ) : ℚ) ≤
      ((rawL m k ds : ℕ) : ℚ) := by
    rw [h1, h2]
    have h5 := h6 w hw
    have hp : (0 : ℚ) < (10 : ℚ) ^ pipelineK m k ds := by positivity
    exact mul_le_mul_of_nonneg_right h5 (le_of_lt hp)
  have h7 : (w.scaleRound (pipelineK m k ds)).toNat ≤ rawL m k ds := by exact_mod_cast h4
  omega

theorem pipeline_units (m k : Dec) (ds : List Demand)
    (hm : 0 < m.val) (hk : 0 ≤ k.val) (h3 : ∀ w ∈ parsedWidths ds, 0 < w.val)
    (hraw : ∀ wi ∈ rawWidths m k ds, wi ≤ rawL m k ds) :
    ∀ i, i < ds.length → unitVec ds.length i ∈ pipelinePatterns m k ds := by
  intro i hi
  have hlen : (effWidths m k ds).length = ds.length := effWidths_length m k ds
  rw [pipelinePatterns, ← hlen]
  refine unitVec_mem_generate _ _ (effWidths_pos m k ds hk h3) i (by omega) ?_
  rw [effWidths_split m k ds hk fun w hw => le_of_lt (h3 w hw),
    effL_split m k ds (le_of_lt hm) hk]
  have hi2 : i < (rawWidths m k ds).length := by rw [rawWidths_length]; omega
  have hi3 : i < ((rawWidths m k ds).map fun wi => wi + rawKerf m k ds).length := by
    simpa using hi2
  rw [List.getD_eq_getElem _ _ hi3, List.getElem_map]
  have h1 := hraw ((rawWidths m k ds)[i]) (List.getElem_mem hi2)
  omega

theorem pipeline_cover (m k : Dec) (ds : List Demand)
    (hm : 0 < m.val) (hk : 0 ≤ k.val) (h3 : ∀ w ∈ parsedWidths ds, 0 < w.val)
    (hraw : ∀ wi ∈ rawWidths m k ds, wi ≤ rawL m k ds) :
    Covers (pipelinePatterns m k ds) (parsedQty ds)
      ((pipelinePatterns m k ds).map fun _ => (parsedQty ds).sum) := by
  refine covers_const _ _ fun i hi => ?_
  have hi2 : i < ds.length := by
    rw [parsedQty_length] at hi
    exact hi
  refine ⟨unitVec ds.length i, pipeline_units m k ds hm hk h3 hraw i hi2, ?_⟩
  rw [unitVec_getD ds.length i hi2]

theorem pipeline_solver_some (m k : Dec) (ds : List Demand)
    (hm : 0 < m.val) (hk : 0 ≤ k.val) (h3 : ∀ w ∈ parsedWidths ds, 0 < w.val)
    (hraw : ∀ wi ∈ rawWidths m k ds, wi ≤ rawL m k ds) :
    ∃ x, solveCutting (pipelinePatterns m k ds) (parsedQty ds) = some x := by
  refine solveCutting_isSome _ _ ((pipelinePatterns m k ds).map fun _ => (parsedQty ds).sum)
    (by simp) (pipeline_cover m k ds hm hk h3 hraw) ?_
  rw [sum_map_const_nat]

theorem parsed_width_pos (ds : List Demand)
    (hd : ∀ d ∈ ds, 0 < d.width.val ∧ 0 ≤ d.quantity.trunc) :
    ∀ w ∈ parsedWidths ds, 0 < w.val := by
  intro w hw
  rw [parsedWidths] at hw
  obtain ⟨d, hdm, rfl⟩ := List.mem_map.mp hw
  exact (hd d hdm).1

theorem optimize_success (m k : Dec) (ds : List Demand)
    (hm : 0 < m.val) (hk : 0 ≤ k.val)
    (hd : ∀ d ∈ ds, 0 < d.width.val ∧ 0 ≤ d.quantity.trunc)
    (hq : (parsedQty ds).sum ≠ 0)
    (h6 : ∀ w ∈ parsedWidths ds, w.val ≤ m.val) :
    ∃ x plan consumed,
      solveCutting (pipelinePatterns m k ds) (parsedQty ds) = some x ∧
      buildPlan (parsedWidths ds) (rawWidths m k ds) (rawKerf m k ds) (rawL m k ds)
        ((pipelinePatterns m k ds).zip x) = .ok (plan, consumed) ∧
      optimize_unlimited_stock_gg solveCutting m ds k =
        .ok (some (mkResult x.sum (rawL m k ds) consumed (pipelineScale m k ds) plan)) := by
  have h3 := parsed_width_pos ds hd
  have hov := oversized_false m k ds hm h3 h6
  have hraw := raw_le_of_not_any m k ds hov
  obtain ⟨x, hx⟩ := pipeline_solver_some m k ds hm hk h3 hraw
  have hfeas : ∀ e ∈ (pipelinePatterns m k ds).zip x,
      usedLen (rawWidths m k ds) (rawKerf m k ds) e.1 ≤ rawL m k ds := by
    intro e he
    obtain ⟨pat, c⟩ := e
    exact usedLen_le m k ds hm hk h3 pat (List.of_mem_zip he).1
  obtain ⟨plan, consumed, hbp⟩ := buildPlan_ok (parsedWidths ds) (rawWidths m k ds)
    (rawKerf m k ds) (rawL m k ds) _ hfeas
  refine ⟨x, plan, consumed, hx, hbp, ?_⟩
  rw [optimize_valid solveCutting m k ds hm hk hd, optimizeCore, if_neg hq, if_neg hov,
    hx]
  show (match buildPlan (parsedWidths ds) (rawWidths m k ds) (rawKerf m k ds)
      (rawL m k ds) ((pipelinePatterns m k ds).zip x) with
    | Except.error e => Except.error e
    | Except.ok pc => Except.ok (some (mkResult x.sum (rawL m k ds) pc.2
        (pipelineScale m k ds) pc.1))) =
    Except.ok (some (mkResult x.sum (rawL m k ds) consumed (pipelineScale m k ds) plan))
  rw [hbp]

/-! ### Waste-accounting lemmas -/

theorem sum_filter_pos_counts : ∀ l : List (Dec × ℕ),
    (((l.filter fun wc => decide (0 < wc.2)).map fun wc =>
        wc.1.val * (wc.2 : ℚ)).sum) =
      ((l.map fun wc => wc.1.val * (wc.2 : ℚ)).sum) := by
  intro l
  induction l with
  | nil => rfl
  | cons wc rest ih =>
    by_cases h : 0 < wc.2
    · rw [List.filter_cons_of_pos (by simpa), List.map_cons, List.map_cons,
        List.sum_cons, List.sum_cons, ih]
    · rw [List.filter_cons_of_neg (by simpa using h), List.map_cons, List.sum_cons, ih]
      have hz : wc.2 = 0 := by omega
      rw [hz]
      simp

theorem sum_filter_pos_snd : ∀ l : List (Dec × ℕ),
    (((l.filter fun wc => decide (0 < wc.2)).map fun wc => wc.2).sum) =
      ((l.map fun wc => wc.2).sum) := by
  intro l
  induction l with
  | nil => rfl
  | cons wc rest ih =>
    by_cases h : 0 < wc.2
    · rw [List.filter_cons_of_pos (by simpa), List.map_cons, List.map_cons,
        List.sum_cons, List.sum_cons, ih]
    · rw [List.filter_cons_of_neg (by simpa using h), List.map_cons, List.sum_cons, ih]
      omega

theorem zip_val_sum (S : ℚ) : ∀ (wf : List Dec) (widths : List ℕ) (pat : List ℕ),
    List.Forall₂ (fun (d : Dec) (wi : ℕ) => (wi : ℚ) = d.val * S) wf widths →
    (((wf.zip pat).map fun wc => wc.1.val * (wc.2 : ℚ)).sum) * S
      = ((weight pat widths : ℕ) : ℚ) := by
  intro wf widths pat hrel
  induction hrel generalizing pat with
  | nil => simp [weight]
  | cons hdw htail ih =>
    rename_i d wi wfr wr
    cases pat with
    | nil => simp [weight]
    | cons c prest =>
      rw [List.zip_cons_cons, List.map_cons, List.sum_cons, weight_cons]
      push_cast
      rw [add_mul, ih prest, hdw]
      ring

theorem zip_snd_sum (wf : List Dec) (pat : List ℕ) (h : pat.length ≤ wf.length) :
    ((wf.zip pat).map fun wc => wc.2).sum = pat.sum := by
  have h1 : ((wf.zip pat).map fun wc => wc.2) = pat := List.map_snd_zip wf pat h
  rw [h1]

theorem entryUsed_scaled (wf : List Dec) (widths : List ℕ) (pat : List ℕ)
    (kN : ℕ) (kq S : ℚ)
    (hrel : List.Forall₂ (fun (d : Dec) (wi : ℕ) => (wi : ℚ) = d.val * S) wf widths)
    (hk : (kN : ℚ) = kq * S) (hlen : pat.length = wf.length) (c : ℕ) :
    entryUsed kq ⟨patternDict wf pat, c⟩ * S = ((usedLen widths kN pat : ℕ) : ℚ) := by
  have hp : entryPieces ⟨patternDict wf pat, c⟩ * S = ((weight pat widths : ℕ) : ℚ) := by
    rw [entryPieces]
    show (((patternDict wf pat).map fun wc => wc.1 * (wc.2 : ℚ)).sum) * S = _
    rw [patternDict, List.map_map]
    have hcomp : ((fun wc : ℚ × ℕ => wc.1 * (wc.2 : ℚ)) ∘
        fun wc : Dec × ℕ => (wc.1.val, wc.2)) =
        fun wc : Dec × ℕ => wc.1.val * (wc.2 : ℚ) := rfl
    rw [hcomp, sum_filter_pos_counts, zip_val_sum S wf widths pat hrel]
  have hc : entryCount ⟨patternDict wf pat, c⟩ = pat.sum := by
    rw [entryCount]
    show ((patternDict wf pat).map fun wc => wc.2).sum = pat.sum
    rw [patternDict, List.map_map]
    have hcomp : ((fun wc : ℚ × ℕ => wc.2) ∘
        fun wc : Dec × ℕ => (wc.1.val, wc.2)) = fun wc : Dec × ℕ => wc.2 := rfl
    rw [hcomp, sum_filter_pos_snd, zip_snd_sum wf pat (le_of_eq hlen)]
  rw [entryUsed, hc, add_mul, hp, mul_assoc, ← hk, usedLen, Nat.cast_add, Nat.cast_mul]
  rfl

theorem buildPlan_sum (wf : List Dec) (widths : List ℕ) (kN L : ℕ) (kq S : ℚ)
    (hrel : List.Forall₂ (fun (d : Dec) (wi : ℕ) => (wi : ℚ) = d.val * S) wf widths)
    (hk : (kN : ℚ) = kq * S) :
    ∀ (entries : List (List ℕ × ℕ)) (plan : List PlanEntry) (consumed : ℕ),
    (∀ e ∈ entries, (e.1 : List ℕ).length = wf.length) →
    buildPlan wf widths kN L entries = .ok (plan, consumed) →
    ((plan.map fun e => entryUsed kq e * (e.count : ℚ)).sum) * S = (consumed : ℚ) := by
  intro entries
  induction entries with
  | nil =>
    intro plan consumed hlen h
    rw [buildPlan] at h
    simp only [Except.ok.injEq, Prod.mk.injEq] at h
    obtain ⟨h1, h2⟩ := h
    rw [← h1, ← h2]
    simp
  | cons e rest ih =>
    intro plan consumed hlen h
    obtain ⟨pat, count⟩ := e
    rw [buildPlan] at h
    by_cases hc : count = 0
    · rw [if_pos hc] at h
      exact ih plan consumed (fun y hy => hlen y (List.mem_cons_of_mem _ hy)) h
    · rw [if_neg hc] at h
      by_cases hL : L < usedLen widths kN pat
      · rw [if_pos hL] at h
        exact absurd h (by simp)
      · rw [if_neg hL] at h
        cases hbp : buildPlan wf widths kN L rest with
        | error e2 =>
          rw [hbp] at h
          exact absurd h (by simp)
        | ok pc =>
          rw [hbp] at h
          obtain ⟨plan2, consumed2⟩ := pc
          simp only [Except.ok.injEq, Prod.mk.injEq] at h
          obtain ⟨h1, h2⟩ := h
          rw [← h1, ← h2]
          rw [List.map_cons, List.sum_cons, add_mul,
            ih plan2 consumed2 (fun y hy => hlen y (List.mem_cons_of_mem _ hy)) hbp]
          have he := entryUsed_scaled wf widths pat kN kq S hrel hk
            (hlen (pat, count) (by simp)) count
          have h5 : entryUsed kq ⟨patternDict wf pat, count⟩ * ((count : ℕ) : ℚ) * S =
              ((usedLen widths kN pat : ℕ) : ℚ) * ((count : ℕ) : ℚ) := by
            rw [mul_right_comm, he]
          push_cast
          push_cast at h5
          rw [h5]

theorem pipelineScale_val (m k : Dec) (ds : List Demand) :
    ((pipelineScale m k ds : ℕ) : ℚ) = (10 : ℚ) ^ pipelineK m k ds := by
  rw [pipelineScale, _decimal_scale_factor, pipelineK]
  push_cast
  rfl

theorem pipelineScale_pos (m k : Dec) (ds : List Demand) :
    0 < pipelineScale m k ds := by
  rw [pipelineScale, _decimal_scale_factor]
  positivity

theorem pipeline_rel (m k : Dec) (ds : List Demand)
    (h3 : ∀ w ∈ parsedWidths ds, 0 ≤ w.val) :
    List.Forall₂
      (fun (d : Dec) (wi : ℕ) => (wi : ℚ) = d.val * ((10 : ℚ) ^ pipelineK m k ds))
      (parsedWidths ds) (rawWidths m k ds) := by
  rw [rawWidths, List.forall₂_map_right_iff, List.forall₂_same]
  intro w hw
  exact rawWidths_val m k ds w hw (h3 w hw)

theorem optimize_ok_some_inv (solver : Solver) (m k : Dec) (ds : List Demand)
    (r : Result)
    (h : optimize_unlimited_stock_gg solver m ds k = .ok (some r)) :
    0 < m.val ∧ 0 ≤ k.val ∧ (∀ d ∈ ds, 0 < d.width.val ∧ 0 ≤ d.quantity.trunc) ∧
    (((parsedQty ds).sum = 0 ∧ r = ⟨0, 0, 0, []⟩) ∨
     ((parsedQty ds).sum ≠ 0 ∧
      ∃ x plan consumed,
        solver (pipelinePatterns m k ds) (parsedQty ds) = some x ∧
        buildPlan (parsedWidths ds) (rawWidths m k ds) (rawKerf m k ds) (rawL m k ds)
          ((pipelinePatterns m k ds).zip x) = .ok (plan, consumed) ∧
        r = mkResult x.sum (rawL m k ds) consumed (pipelineScale m k ds) plan)) := by
  rw [optimize_unlimited_stock_gg] at h
  by_cases h1 : m.val ≤ 0
  · rw [if_pos h1] at h
    simp at h
  rw [if_neg h1] at h
  by_cases h2 : k.val < 0
  · rw [if_pos h2] at h
    simp at h
  rw [if_neg h2] at h
  by_cases h3 : ds.any demandInvalid = true
  · rw [if_pos h3] at h
    simp at h
  rw [if_neg h3] at h
  refine ⟨not_le.mp h1, not_lt.mp h2, demand_valid_of_not_any ds h3, ?_⟩
  rw [optimizeCore] at h
  by_cases hq : (parsedQty ds).sum = 0
  · rw [if_pos hq] at h
    simp only [Except.ok.injEq, Option.some.injEq] at h
    exact Or.inl ⟨hq, h.symm⟩
  rw [if_neg hq] at h
  refine Or.inr ⟨hq, ?_⟩
  by_cases hov : ((rawWidths m k ds).any fun wi => decide (rawL m k ds < wi)) = true
  · rw [if_pos hov] at h
    simp at h
  rw [if_neg hov] at h
  cases hsol : solver (pipelinePatterns m k ds) (parsedQty ds) with
  | none =>
    rw [hsol] at h
    simp at h
  | some x =>
    rw [hsol] at h
    have h4 : (match buildPlan (parsedWidths ds) (rawWidths m k ds) (rawKerf m k ds)
        (rawL m k ds) ((pipelinePatterns m k ds).zip x) with
      | Except.error e => Except.error e
      | Except.ok pc => Except.ok (some (mkResult x.sum (rawL m k ds) pc.2
          (pipelineScale m k ds) pc.1))) = Except.ok (some r) := h
    cases hbp : buildPlan (parsedWidths ds) (rawWidths m k ds) (rawKerf m k ds)
        (rawL m k ds) ((pipelinePatterns m k ds).zip x) with
    | error e2 =>
      rw [hbp] at h4
      simp at h4
    | ok pc =>
      rw [hbp] at h4
      obtain ⟨plan, consumed⟩ := pc
      simp only [Except.ok.injEq, Option.some.injEq] at h4
      exact ⟨x, plan, consumed, rfl, hbp, h4.symm⟩

theorem foldr_max_swap : ∀ (l : List ℕ) (a b : ℕ),
    l.foldr max (max a b) = max b (l.foldr max a) := by
  intro l
  induction l with
  | nil => intro a b; exact max_comm a b
  | cons c t ih =>
    intro a b
    rw [List.foldr_cons, List.foldr_cons, ih, max_left_comm]

theorem foldl_toNat_eq_foldr (vals : List Dec) : ∀ i : ℤ, 0 ≤ i →
    (vals.foldl (fun (k : ℤ) (v : Dec) => max k (-v.exp)) i).toNat =
      (vals.map fracDigits).foldr max i.toNat := by
  induction vals with
  | nil => intro i hi; rfl
  | cons v vs ih =>
    intro i hi
    rw [List.foldl_cons, List.map_cons, List.foldr_cons]
    rw [ih (max i (-v.exp)) (by omega)]
    have h1 : (max i (-v.exp)).toNat = max i.toNat (fracDigits v) := by
      rw [fracDigits]
      omega
    rw [h1, foldr_max_swap]

theorem scaleExpOf_eq_spec (vals : List Dec) :
    scaleExpOf vals = specMaxFracDigits vals := by
  rw [scaleExpOf, specMaxFracDigits, foldl_toNat_eq_foldr vals 0 (le_refl 0)]
  rfl

/-! ### Claim theorems -/

/-- C3: the pattern enumerator is exhaustive and duplicate-free: for every
capacity and positive widths its output contains every non-zero count
vector of weight at most the capacity exactly once; and on `L_eff = 10`,
`widths_eff = [3,4]` the output is exactly
`{(0,1),(0,2),(1,0),(1,1),(2,0),(2,1),(3,0)}`. -/
theorem pattern_enumerator_exhaustive_nodup (L : ℕ) (ws : List ℕ)
    (hw : ∀ w ∈ ws, 0 < w) :
    ((∀ p, p ∈ _generate_all_patterns L ws ↔
        p.length = ws.length ∧ weight p ws ≤ L ∧ ∃ c ∈ p, 0 < c) ∧
      (_generate_all_patterns L ws).Nodup) ∧
    _generate_all_patterns 10 [3, 4] =
      [[0, 1], [0, 2], [1, 0], [1, 1], [2, 0], [2, 1], [3, 0]] :=
  ⟨⟨mem_generate_all_patterns L ws hw, generate_all_patterns_nodup L ws⟩, by decide⟩

theorem pattern_enumerator_exhaustive_nodup_witness :
    (∀ w ∈ [3, 4], 0 < w) ∧
    (∀ p, p ∈ _generate_all_patterns 10 [3, 4] ↔
        p.length = [3, 4].length ∧ weight p [3, 4] ≤ 10 ∧ ∃ c ∈ p, 0 < c) ∧
    (_generate_all_patterns 10 [3, 4]).Nodup :=
  ⟨by decide, (pattern_enumerator_exhaustive_nodup 10 [3, 4] (by decide)).1.1,
    (pattern_enumerator_exhaustive_nodup 10 [3, 4] (by decide)).1.2⟩

/-- C4: enumerator soundness: every emitted pattern fits in the capacity
and is not all-zero; and whenever `width_eff[i] ≤ L_eff` the single-item
pattern for item `i` is in the output. -/
theorem pattern_enumerator_sound_units (L : ℕ) (ws : List ℕ)
    (hw : ∀ w ∈ ws, 0 < w) :
    (∀ p ∈ _generate_all_patterns L ws, weight p ws ≤ L ∧ ∃ c ∈ p, 0 < c) ∧
    (∀ i, i < ws.length → ws.getD i 0 ≤ L →
      unitVec ws.length i ∈ _generate_all_patterns L ws) := by
  constructor
  · intro p hp
    have h1 := (mem_generate_all_patterns L ws hw p).mp hp
    exact ⟨h1.2.1, h1.2.2⟩
  · intro i hi hfit
    exact unitVec_mem_generate L ws hw i hi hfit

theorem pattern_enumerator_sound_units_witness :
    (∀ w ∈ [3, 4], 0 < w) ∧
    (∀ p ∈ _generate_all_patterns 10 [3, 4],
      weight p [3, 4] ≤ 10 ∧ ∃ c ∈ p, 0 < c) ∧
    (∀ i, i < [3, 4].length → [3, 4].getD i 0 ≤ 10 →
      unitVec [3, 4].length i ∈ _generate_all_patterns 10 [3, 4]) :=
  ⟨by decide, (pattern_enumerator_sound_units 10 [3, 4] (by decide)).1,
    (pattern_enumerator_sound_units 10 [3, 4] (by decide)).2⟩

/-- C5: the post-solve feasibility re-check never fires: no input (and no
solver outcome) can make the call end in the `InternalConsistencyError`
(`RuntimeError`) branch, because every enumerated pattern satisfies
`used = Σ count*width + max(0,n-1)*kerf ≤ L` in the raw domain. -/
theorem internal_consistency_unreachable (solver : Solver) (m k : Dec)
    (ds : List Demand) :
    optimize_unlimited_stock_gg solver m ds k ≠ .error .internalConsistency := by
  intro h
  rw [optimize_unlimited_stock_gg] at h
  by_cases h1 : m.val ≤ 0
  · rw [if_pos h1] at h
    simp at h
  rw [if_neg h1] at h
  by_cases h2 : k.val < 0
  · rw [if_pos h2] at h
    simp at h
  rw [if_neg h2] at h
  by_cases h3 : ds.any demandInvalid = true
  · rw [if_pos h3] at h
    simp at h
  rw [if_neg h3] at h
  have hd := demand_valid_of_not_any ds h3
  have hm := not_le.mp h1
  have hk := not_lt.mp h2
  have h3w := parsed_width_pos ds hd
  rw [optimizeCore] at h
  by_cases hq : (parsedQty ds).sum = 0
  · rw [if_pos hq] at h
    simp at h
  rw [if_neg hq] at h
  by_cases hov : ((rawWidths m k ds).any fun wi => decide (rawL m k ds < wi)) = true
  · rw [if_pos hov] at h
    simp at h
  rw [if_neg hov] at h
  cases hsol : solver (pipelinePatterns m k ds) (parsedQty ds) with
  | none =>
    rw [hsol] at h
    simp at h
  | some x =>
    rw [hsol] at h
    have h4 : (match buildPlan (parsedWidths ds) (rawWidths m k ds) (rawKerf m k ds)
        (rawL m k ds) ((pipelinePatterns m k ds).zip x) with
      | Except.error e => Except.error e
      | Except.ok pc => Except.ok (some (mkResult x.sum (rawL m k ds) pc.2
          (pipelineScale m k ds) pc.1))) = Except.error Err.internalConsistency := h
    have hfeas : ∀ e ∈ (pipelinePatterns m k ds).zip x,
        usedLen (rawWidths m k ds) (rawKerf m k ds) e.1 ≤ rawL m k ds := by
      intro e he
      obtain ⟨pat, c⟩ := e
      exact usedLen_le m k ds hm hk h3w pat (List.of_mem_zip he).1
    obtain ⟨plan, consumed, hbp⟩ := buildPlan_ok (parsedWidths ds) (rawWidths m k ds)
      (rawKerf m k ds) (rawL m k ds) _ hfeas
    rw [hbp] at h4
    simp at h4

/-- C7: the scale factor equals 10 to the maximum number of fractional
decimal digits among `master+kerf`, `kerf`, and each `width+kerf`, and
multiplying each of those magnitudes by it yields an exact integer (the
half-up rounding is the identity). -/
theorem scale_factor_exact (m k : Dec) (ds : List Demand) :
    pipelineScale m k ds = 10 ^ specMaxFracDigits (pipelineVals m k ds) ∧
    ∀ v ∈ pipelineVals m k ds,
      (∃ n : ℤ, v.val * ((pipelineScale m k ds : ℕ) : ℚ) = (n : ℚ)) ∧
      ((v.scaleRound (pipelineK m k ds) : ℤ) : ℚ) =
        v.val * ((pipelineScale m k ds : ℕ) : ℚ) := by
  constructor
  · rw [pipelineScale, _decimal_scale_factor, scaleExpOf_eq_spec]
  · intro v hv
    have hb : -v.exp ≤ (pipelineK m k ds : ℤ) :=
      scaleExpOf_bound (pipelineVals m k ds) v hv
    refine ⟨⟨v.scaleRound (pipelineK m k ds), ?_⟩, ?_⟩
    · rw [pipelineScale_val, Dec.scaleRound_val v _ hb]
    · rw [pipelineScale_val, Dec.scaleRound_val v _ hb]

theorem scale_factor_exact_witness :
    ((⟨25, -2⟩ : Dec) ∈ pipelineVals ⟨105, -1⟩ ⟨25, -2⟩ [⟨⟨3, 0⟩, ⟨1, 0⟩⟩]) ∧
    (∃ n : ℤ, (⟨25, -2⟩ : Dec).val *
        ((pipelineScale ⟨105, -1⟩ ⟨25, -2⟩ [⟨⟨3, 0⟩, ⟨1, 0⟩⟩] : ℕ) : ℚ) = (n : ℚ)) ∧
    ((Dec.scaleRound ⟨25, -2⟩ (pipelineK ⟨105, -1⟩ ⟨25, -2⟩ [⟨⟨3, 0⟩, ⟨1, 0⟩⟩]) : ℤ) : ℚ) =
      (⟨25, -2⟩ : Dec).val *
        ((pipelineScale ⟨105, -1⟩ ⟨25, -2⟩ [⟨⟨3, 0⟩, ⟨1, 0⟩⟩] : ℕ) : ℚ) :=
  ⟨by decide,
    ((scale_factor_exact ⟨105, -1⟩ ⟨25, -2⟩ [⟨⟨3, 0⟩, ⟨1, 0⟩⟩]).2 ⟨25, -2⟩ (by decide)).1,
    ((scale_factor_exact ⟨105, -1⟩ ⟨25, -2⟩ [⟨⟨3, 0⟩, ⟨1, 0⟩⟩]).2 ⟨25, -2⟩ (by decide)).2⟩

/-- C8: if validation passes and all (truncated) quantities sum to zero,
the call returns the trivial empty result, for every solving backend (the
enumerator and solver are never consulted). -/
theorem zero_demand_trivial (solver : Solver) (m k : Dec) (ds : List Demand)
    (hm : 0 < m.val) (hk : 0 ≤ k.val)
    (hd : ∀ d ∈ ds, 0 < d.width.val ∧ 0 ≤ d.quantity.trunc)
    (hq : (parsedQty ds).sum = 0) :
    optimize_unlimited_stock_gg solver m ds k = .ok (some ⟨0, 0, 0, []⟩) := by
  rw [optimize_valid solver m k ds hm hk hd, optimizeCore, if_pos hq]

theorem zero_demand_trivial_witness :
    (0 < (⟨10, 0⟩ : Dec).val) ∧ (0 ≤ (⟨0, 0⟩ : Dec).val) ∧
    (∀ d ∈ [(⟨⟨3, 0⟩, ⟨0, 0⟩⟩ : Demand)],
      0 < d.width.val ∧ 0 ≤ d.quantity.trunc) ∧
    ((parsedQty [(⟨⟨3, 0⟩, ⟨0, 0⟩⟩ : Demand)]).sum = 0) ∧
    optimize_unlimited_stock_gg noSolver ⟨10, 0⟩ [⟨⟨3, 0⟩, ⟨0, 0⟩⟩] ⟨0, 0⟩ =
      .ok (some ⟨0, 0, 0, []⟩) :=
  ⟨by decide, by decide, by decide, by decide,
    zero_demand_trivial noSolver ⟨10, 0⟩ ⟨0, 0⟩ [⟨⟨3, 0⟩, ⟨0, 0⟩⟩]
      (by decide) (by decide) (by decide) (by decide)⟩

/-- C9 counterexample: an otherwise-valid input with an oversized width but
all-zero quantities returns the trivial result, not `OversizedItem` — the
zero-demand short-circuit (line 168) runs before the oversized check
(line 206), so the claim as stated is false. -/
theorem oversized_zero_demand_counterexample :
    optimize_unlimited_stock_gg solveCutting ⟨10, 0⟩ [⟨⟨20, 0⟩, ⟨0, 0⟩⟩] ⟨0, 0⟩ =
      .ok (some ⟨0, 0, 0, []⟩) ∧
    ∀ e : Err, optimize_unlimited_stock_gg solveCutting ⟨10, 0⟩
      [⟨⟨20, 0⟩, ⟨0, 0⟩⟩] ⟨0, 0⟩ ≠ .error e := by
  have h0 : optimize_unlimited_stock_gg solveCutting ⟨10, 0⟩
      [⟨⟨20, 0⟩, ⟨0, 0⟩⟩] ⟨0, 0⟩ = .ok (some ⟨0, 0, 0, []⟩) := rfl
  exact ⟨h0, fun e h => by rw [h0] at h; exact Except.noConfusion h⟩

/-- C9 amended: provided at least one truncated quantity is positive, an
otherwise-valid input containing a width strictly greater than the master
length fails with `OversizedItem`, for every backend and regardless of the
kerf (the check compares raw scaled widths). -/
theorem oversized_rejection (solver : Solver) (m k : Dec) (ds : List Demand)
    (hm : 0 < m.val) (hk : 0 ≤ k.val)
    (hd : ∀ d ∈ ds, 0 < d.width.val ∧ 0 ≤ d.quantity.trunc)
    (hq : (parsedQty ds).sum ≠ 0)
    (hbig : ∃ d ∈ ds, m.val < d.width.val) :
    optimize_unlimited_stock_gg solver m ds k = .error .oversizedItem := by
  have hany : ((rawWidths m k ds).any fun wi => decide (rawL m k ds < wi)) = true := by
    rw [List.any_eq_true]
    obtain ⟨d, hdm, hw⟩ := hbig
    have hwmem : d.width ∈ parsedWidths ds := by
      rw [parsedWidths]
      exact List.mem_map.mpr ⟨d, hdm, rfl⟩
    refine ⟨(d.width.scaleRound (pipelineK m k ds)).toNat, ?_, ?_⟩
    · rw [rawWidths]
      exact List.mem_map.mpr ⟨d.width, hwmem, rfl⟩
    · rw [decide_eq_true_eq]
      have hwv := (hd d hdm).1
      have h1 := rawWidths_val m k ds d.width hwmem (le_of_lt hwv)
      have h2 := rawL_val m k ds (le_of_lt hm)
      have hp : (0 : ℚ) < (10 : ℚ) ^ pipelineK m k ds := by positivity
      have h4 : ((rawL m k ds : ℕ) : ℚ) <
          (((d.width.scaleRound (pipelineK m k ds)).toNat : ℕ) : ℚ) := by
        rw [h1, h2]
        exact mul_lt_mul_of_pos_right hw hp
      exact_mod_cast h4
  rw [optimize_valid solver m k ds hm hk hd, optimizeCore, if_neg hq, if_pos hany]

theorem oversized_rejection_witness :
    (0 < (⟨10, 0⟩ : Dec).val) ∧
    ((parsedQty [(⟨⟨20, 0⟩, ⟨1, 0⟩⟩ : Demand)]).sum ≠ 0) ∧
    (∃ d ∈ [(⟨⟨20, 0⟩, ⟨1, 0⟩⟩ : Demand)], (⟨10, 0⟩ : Dec).val < d.width.val) ∧
    optimize_unlimited_stock_gg noSolver ⟨10, 0⟩ [⟨⟨20, 0⟩, ⟨1, 0⟩⟩] ⟨0, 0⟩ =
      .error .oversizedItem :=
  ⟨by decide, by decide, by decide,
    oversized_rejection noSolver ⟨10, 0⟩ ⟨0, 0⟩ [⟨⟨20, 0⟩, ⟨1, 0⟩⟩]
      (by decide) (by decide) (by decide) (by decide) (by decide)⟩

/-- C2 counterexample: with a backend whose solve terminates without a
proven-optimal solution, the call returns the empty dict `{}` (modelled
`ok none`) and raises nothing — contradicting the claim that it fails with
a raised error and never returns an empty value. -/
theorem solver_failure_counterexample :
    optimize_unlimited_stock_gg noSolver ⟨1, 0⟩ [⟨⟨1, 0⟩, ⟨1, 0⟩⟩] ⟨0, 0⟩ =
      .ok none ∧
    ∀ e : Err, optimize_unlimited_stock_gg noSolver ⟨1, 0⟩
      [⟨⟨1, 0⟩, ⟨1, 0⟩⟩] ⟨0, 0⟩ ≠ .error e := by
  have h0 : optimize_unlimited_stock_gg noSolver ⟨1, 0⟩ [⟨⟨1, 0⟩, ⟨1, 0⟩⟩] ⟨0, 0⟩ =
      .ok none := rfl
  exact ⟨h0, fun e h => by rw [h0] at h; exact Except.noConfusion h⟩

/-- C2 amended: if the input reaches the solve and the backend terminates
without a proven-optimal solution, the call returns the empty dict `{}`
(`ok none`) rather than raising; every raised failure happens before the
solve. -/
theorem solver_failure_returns_empty (solver : Solver) (m k : Dec)
    (ds : List Demand)
    (hm : 0 < m.val) (hk : 0 ≤ k.val)
    (hd : ∀ d ∈ ds, 0 < d.width.val ∧ 0 ≤ d.quantity.trunc)
    (hq : (parsedQty ds).sum ≠ 0)
    (hov : ¬ ((rawWidths m k ds).any fun wi => decide (rawL m k ds < wi)) = true)
    (hsol : solver (pipelinePatterns m k ds) (parsedQty ds) = none) :
    optimize_unlimited_stock_gg solver m ds k = .ok none := by
  rw [optimize_valid solver m k ds hm hk hd, optimizeCore, if_neg hq, if_neg hov, hsol]

theorem solver_failure_returns_empty_witness :
    (0 < (⟨1, 0⟩ : Dec).val) ∧
    ((parsedQty [(⟨⟨1, 0⟩, ⟨1, 0⟩⟩ : Demand)]).sum ≠ 0) ∧
    (¬ ((rawWidths ⟨1, 0⟩ ⟨0, 0⟩ [⟨⟨1, 0⟩, ⟨1, 0⟩⟩]).any fun wi =>
      decide (rawL ⟨1, 0⟩ ⟨0, 0⟩ [⟨⟨1, 0⟩, ⟨1, 0⟩⟩] < wi)) = true) ∧
    optimize_unlimited_stock_gg noSolver ⟨1, 0⟩ [⟨⟨1, 0⟩, ⟨1, 0⟩⟩] ⟨0, 0⟩ =
      .ok none :=
  ⟨by decide, by decide, by decide,
    solver_failure_returns_empty noSolver ⟨1, 0⟩ ⟨0, 0⟩ [⟨⟨1, 0⟩, ⟨1, 0⟩⟩]
      (by decide) (by decide) (by decide) (by decide) (by decide) rfl⟩

/-- C1: for every valid input with at least one positive quantity, the
engine returns a certified-optimal plan: there is a non-negative integer
multiplicity vector `x` over the enumerated patterns that covers every
demand line, `cores_required = Σ x[j]`, and no covering multiplicity
vector has a smaller total. -/
theorem optimizer_certified_optimal (m k : Dec) (ds : List Demand)
    (hm : 0 < m.val) (hk : 0 ≤ k.val)
    (hd : ∀ d ∈ ds, 0 < d.width.val ∧ 0 ≤ d.quantity.trunc)
    (hq : (parsedQty ds).sum ≠ 0)
    (h6 : ∀ d ∈ ds, d.width.val ≤ m.val) :
    ∃ r x, optimize_unlimited_stock_gg solveCutting m ds k = .ok (some r) ∧
      r.cores_required = x.sum ∧
      x.length = (pipelinePatterns m k ds).length ∧
      Covers (pipelinePatterns m k ds) (parsedQty ds) x ∧
      ∀ y, y.length = (pipelinePatterns m k ds).length →
        Covers (pipelinePatterns m k ds) (parsedQty ds) y → x.sum ≤ y.sum := by
  have h6w : ∀ w ∈ parsedWidths ds, w.val ≤ m.val := by
    intro w hw
    rw [parsedWidths] at hw
    obtain ⟨d, hdm, rfl⟩ := List.mem_map.mp hw
    exact h6 d hdm
  obtain ⟨x, plan, consumed, hx, hbp, hopt⟩ := optimize_success m k ds hm hk hd hq h6w
  obtain ⟨hcov, hlen, hmin⟩ := solveCutting_spec _ _ x hx
  exact ⟨_, x, hopt, rfl, hlen, hcov, hmin⟩

theorem optimizer_certified_optimal_witness :
    (0 < (⟨1, 0⟩ : Dec).val) ∧
    ((parsedQty [(⟨⟨1, 0⟩, ⟨1, 0⟩⟩ : Demand)]).sum ≠ 0) ∧
    (∀ d ∈ [(⟨⟨1, 0⟩, ⟨1, 0⟩⟩ : Demand)], d.width.val ≤ (⟨1, 0⟩ : Dec).val) ∧
    ∃ r x, optimize_unlimited_stock_gg solveCutting ⟨1, 0⟩
        [⟨⟨1, 0⟩, ⟨1, 0⟩⟩] ⟨0, 0⟩ = .ok (some r) ∧
      r.cores_required = x.sum ∧
      x.length = (pipelinePatterns ⟨1, 0⟩ ⟨0, 0⟩ [⟨⟨1, 0⟩, ⟨1, 0⟩⟩]).length ∧
      Covers (pipelinePatterns ⟨1, 0⟩ ⟨0, 0⟩ [⟨⟨1, 0⟩, ⟨1, 0⟩⟩])
        (parsedQty [⟨⟨1, 0⟩, ⟨1, 0⟩⟩]) x ∧
      ∀ y, y.length = (pipelinePatterns ⟨1, 0⟩ ⟨0, 0⟩ [⟨⟨1, 0⟩, ⟨1, 0⟩⟩]).length →
        Covers (pipelinePatterns ⟨1, 0⟩ ⟨0, 0⟩ [⟨⟨1, 0⟩, ⟨1, 0⟩⟩])
          (parsedQty [⟨⟨1, 0⟩, ⟨1, 0⟩⟩]) y → x.sum ≤ y.sum :=
  ⟨by decide, by decide, by decide,
    optimizer_certified_optimal ⟨1, 0⟩ ⟨0, 0⟩ [⟨⟨1, 0⟩, ⟨1, 0⟩⟩]
      (by decide) (by decide) (by decide) (by decide) (by decide)⟩

/-- C6: for every successful result, waste accounting is conserved exactly
at the resolution of the scale: `cores × master_length` equals the sum
over the plan of `(pieces_length + kerf_loss) × multiplicity` plus
`total_waste`; and `total_waste_percent = total_waste / (cores × master) × 100`,
with value `0` when `cores_required = 0`. -/
theorem waste_conservation (m k : Dec) (ds : List Demand) (r : Result)
    (h : optimize_unlimited_stock_gg solveCutting m ds k = .ok (some r)) :
    (r.cores_required : ℚ) * m.val =
      ((r.cutting_plan.map fun e => entryUsed k.val e * (e.count : ℚ)).sum) +
        r.total_waste ∧
    r.total_waste_percent =
      r.total_waste / ((r.cores_required : ℚ) * m.val) * 100 ∧
    (r.cores_required = 0 → r.total_waste_percent = 0) := by
  obtain ⟨hm, hk, hd, hcase⟩ := optimize_ok_some_inv solveCutting m k ds r h
  rcases hcase with ⟨hq, rfl⟩ | ⟨hq, x, plan, consumed, hsol, hbp, rfl⟩
  · refine ⟨by simp, by simp, fun _ => rfl⟩
  · have hSpos : (0 : ℚ) < (10 : ℚ) ^ pipelineK m k ds := by positivity
    have hSne : ((10 : ℚ) ^ pipelineK m k ds) ≠ 0 := ne_of_gt hSpos
    have h3 := parsed_width_pos ds hd
    have hrel := pipeline_rel m k ds fun w hw => le_of_lt (h3 w hw)
    have hkrel : ((rawKerf m k ds : ℕ) : ℚ) = k.val * (10 : ℚ) ^ pipelineK m k ds :=
      rawKerf_val m k ds hk
    have hlenpat : ∀ e ∈ (pipelinePatterns m k ds).zip x,
        (e.1 : List ℕ).length = (parsedWidths ds).length := by
      intro e he
      obtain ⟨pat, c⟩ := e
      have hp := (List.of_mem_zip he).1
      rw [pipelinePatterns,
        mem_generate_all_patterns _ _ (effWidths_pos m k ds hk h3)] at hp
      rw [hp.1, effWidths_length, parsedWidths_length]
    have hsum := buildPlan_sum (parsedWidths ds) (rawWidths m k ds) (rawKerf m k ds)
      (rawL m k ds) k.val ((10 : ℚ) ^ pipelineK m k ds) hrel hkrel _ plan consumed
      hlenpat hbp
    have hLval : ((rawL m k ds : ℕ) : ℚ) = m.val * (10 : ℚ) ^ pipelineK m k ds :=
      rawL_val m k ds (le_of_lt hm)
    have hscale : ((pipelineScale m k ds : ℕ) : ℚ) = (10 : ℚ) ^ pipelineK m k ds :=
      pipelineScale_val m k ds
    have hused : Rat.divInt (((x.sum * rawL m k ds : ℕ) : ℤ))
        ((pipelineScale m k ds : ℕ) : ℤ) = (x.sum : ℚ) * m.val := by
      rw [Rat.divInt_eq_div]
      push_cast [-Nat.cast_list_sum, -Int.cast_list_sum]
      rw [hLval, hscale, mul_div_assoc, mul_div_assoc, div_self hSne, mul_one]
    refine ⟨?_, ?_, ?_⟩
    · show (x.sum : ℚ) * m.val =
        ((plan.map fun e => entryUsed k.val e * (e.count : ℚ)).sum) +
          Rat.divInt (((x.sum * rawL m k ds : ℕ) : ℤ) - (consumed : ℤ))
            ((pipelineScale m k ds : ℕ) : ℤ)
      apply mul_right_cancel₀ hSne
      rw [add_mul, hsum, Rat.divInt_eq_div]
      push_cast [-Nat.cast_list_sum, -Int.cast_list_sum]
      rw [hscale, div_mul_cancel₀ _ hSne, hLval]
      ring
    · show (if 0 < Rat.divInt (((x.sum * rawL m k ds : ℕ) : ℤ))
          ((pipelineScale m k ds : ℕ) : ℤ) then
          Rat.divInt (((x.sum * rawL m k ds : ℕ) : ℤ) - (consumed : ℤ))
            ((pipelineScale m k ds : ℕ) : ℤ) /
            Rat.divInt (((x.sum * rawL m k ds : ℕ) : ℤ))
              ((pipelineScale m k ds : ℕ) : ℤ) * 100
        else 0) =
        Rat.divInt (((x.sum * rawL m k ds : ℕ) : ℤ) - (consumed : ℤ))
            ((pipelineScale m k ds : ℕ) : ℤ) / ((x.sum : ℚ) * m.val) * 100
      rw [hused]
      by_cases hpos2 : (0 : ℚ) < (x.sum : ℚ) * m.val
      · rw [if_pos hpos2]
      · rw [if_neg hpos2]
        have hx0 : ((x.sum : ℕ) : ℚ) * m.val = 0 := by
          have hge : (0 : ℚ) ≤ (x.sum : ℚ) * m.val := by positivity
          linarith
        rw [hx0, div_zero, zero_mul]
    · intro hc0
      have hc1 : x.sum = 0 := hc0
      show (if 0 < Rat.divInt (((x.sum * rawL m k ds : ℕ) : ℤ))
          ((pipelineScale m k ds : ℕ) : ℤ) then
          Rat.divInt (((x.sum * rawL m k ds : ℕ) : ℤ) - (consumed : ℤ))
            ((pipelineScale m k ds : ℕ) : ℤ) /
            Rat.divInt (((x.sum * rawL m k ds : ℕ) : ℤ))
              ((pipelineScale m k ds : ℕ) : ℤ) * 100
        else 0) = 0
      rw [hused, hc1]
      norm_num

theorem waste_conservation_witness :
    (optimize_unlimited_stock_gg solveCutting ⟨1, 0⟩ [⟨⟨1, 0⟩, ⟨1, 0⟩⟩] ⟨0, 0⟩ =
      .ok (some ⟨1, Rat.divInt 0 1, Rat.divInt 0 1 / Rat.divInt 1 1 * 100,
        [⟨[((⟨1, 0⟩ : Dec).val, 1)], 1⟩]⟩)) ∧
    (((1 : ℕ) : ℚ) * (⟨1, 0⟩ : Dec).val =
      (([⟨[((⟨1, 0⟩ : Dec).val, 1)], 1⟩] : List PlanEntry).map fun e =>
        entryUsed (⟨0, 0⟩ : Dec).val e * (e.count : ℚ)).sum +
        Rat.divInt 0 1 ∧
      Rat.divInt 0 1 / Rat.divInt 1 1 * 100 =
        Rat.divInt 0 1 / (((1 : ℕ) : ℚ) * (⟨1, 0⟩ : Dec).val) * 100 ∧
      ((1 : ℕ) = 0 → Rat.divInt 0 1 / Rat.divInt 1 1 * 100 = 0)) := by
  constructor
  · rfl
  · exact waste_conservation ⟨1, 0⟩ ⟨0, 0⟩ [⟨⟨1, 0⟩, ⟨1, 0⟩⟩]
      ⟨1, Rat.divInt 0 1, Rat.divInt 0 1 / Rat.divInt 1 1 * 100,
        [⟨[((⟨1, 0⟩ : Dec).val, 1)], 1⟩]⟩ (by rfl)

/-! ### Quantity-truncation lemmas -/

theorem Dec.trunc_int (n : ℤ) : (Dec.mk n 0).trunc = n := by
  rw [Dec.trunc]
  norm_num

theorem dec_trunc_floor (d : Dec) :
    d.trunc = if 0 ≤ d.val then ⌊d.val⌋ else ⌈d.val⌉ := by
  rcases le_or_lt 0 d.exp with he | he
  · have hv : d.val = ((d.mant * 10 ^ d.exp.toNat : ℤ) : ℚ) := by
      rw [Dec.val]
      have h0 : (-d.exp).toNat = 0 := by omega
      rw [h0, pow_zero, Rat.divInt_eq_div]
      norm_num
    rw [Dec.trunc, if_pos he, hv]
    rcases le_or_lt 0 (((d.mant * 10 ^ d.exp.toNat : ℤ) : ℚ)) with h1 | h1
    · rw [if_pos h1, Int.floor_intCast]
    · rw [if_neg (not_le.mpr h1), Int.ceil_intCast]
  · have h0 : d.exp.toNat = 0 := by omega
    have hv : d.val = (d.mant : ℚ) / (((10 : ℕ) ^ (-d.exp).toNat : ℕ) : ℚ) := by
      rw [Dec.val, h0, pow_zero, mul_one, Rat.divInt_eq_div]
      push_cast
      rfl
    have hcastpow : ((10 : ℤ) ^ (-d.exp).toNat) = (((10 : ℕ) ^ (-d.exp).toNat : ℕ) : ℤ) := by
      push_cast
      rfl
    have hjpos : (0 : ℚ) < (((10 : ℕ) ^ (-d.exp).toNat : ℕ) : ℚ) := by positivity
    rw [Dec.trunc, if_neg (not_le.mpr he)]
    rcases le_or_lt 0 d.mant with hm | hm
    · have hvpos : 0 ≤ d.val := by
        rw [hv]
        positivity
      rw [if_pos hvpos, hv, Rat.floor_intCast_div_natCast d.mant (10 ^ (-d.exp).toNat),
        hcastpow, Int.tdiv_eq_ediv hm (by positivity)]
    · have hmq : (d.mant : ℚ) < 0 := by exact_mod_cast hm
      have hvneg : d.val < 0 := by
        rw [hv]
        exact div_neg_of_neg_of_pos hmq hjpos
      rw [if_neg (not_le.mpr hvneg), hv]
      have hc : ⌈(d.mant : ℚ) / (((10 : ℕ) ^ (-d.exp).toNat : ℕ) : ℚ)⌉ =
          -⌊-((d.mant : ℚ)) / (((10 : ℕ) ^ (-d.exp).toNat : ℕ) : ℚ)⌋ := by
        rw [neg_div, ← Int.ceil_neg, neg_neg]
      have hnc : (-(d.mant : ℚ)) = ((-d.mant : ℤ) : ℚ) := by push_cast; ring
      rw [hc, hnc, Rat.floor_intCast_div_natCast (-d.mant) (10 ^ (-d.exp).toNat),
        hcastpow]
      have ht : d.mant.tdiv ((((10 : ℕ) ^ (-d.exp).toNat : ℕ) : ℤ)) =
          -((-d.mant).tdiv ((((10 : ℕ) ^ (-d.exp).toNat : ℕ) : ℤ))) := by
        rw [← Int.neg_tdiv, neg_neg]
      rw [ht, Int.tdiv_eq_ediv (by omega) (by positivity)]

theorem any_congr_list {α : Type} : ∀ (l : List α) (p q : α → Bool),
    (∀ a ∈ l, p a = q a) → l.any p = l.any q := by
  intro l
  induction l with
  | nil => intro p q h; rfl
  | cons a t ih =>
    intro p q h
    rw [List.any_cons, List.any_cons, h a (by simp), ih p q fun x hx => h x (by simp [hx])]

theorem parsedWidths_trunc (ds : List Demand) :
    parsedWidths (ds.map fun d => ⟨d.width, ⟨d.quantity.trunc, 0⟩⟩) = parsedWidths ds := by
  rw [parsedWidths, parsedWidths, List.map_map]
  rfl

theorem parsedQty_trunc (ds : List Demand) :
    parsedQty (ds.map fun d => ⟨d.width, ⟨d.quantity.trunc, 0⟩⟩) = parsedQty ds := by
  rw [parsedQty, parsedQty, List.map_map]
  refine List.map_congr_left fun d hd => ?_
  show ((⟨d.quantity.trunc, 0⟩ : Dec).trunc).toNat = d.quantity.trunc.toNat
  rw [Dec.trunc_int]

theorem any_demandInvalid_trunc (ds : List Demand) :
    (ds.map fun d => (⟨d.width, ⟨d.quantity.trunc, 0⟩⟩ : Demand)).any demandInvalid =
      ds.any demandInvalid := by
  rw [List.any_map]
  refine any_congr_list ds _ _ fun d hd => ?_
  show demandInvalid ⟨d.width, ⟨d.quantity.trunc, 0⟩⟩ = demandInvalid d
  rw [demandInvalid, demandInvalid, Dec.trunc_int]

theorem optimizeCore_congr (solver : Solver) (m k : Dec) (ds1 ds2 : List Demand)
    (hW : parsedWidths ds1 = parsedWidths ds2)
    (hQ : parsedQty ds1 = parsedQty ds2) :
    optimizeCore solver m k ds1 = optimizeCore solver m k ds2 := by
  have hV : pipelineVals m k ds1 = pipelineVals m k ds2 := by
    rw [pipelineVals, pipelineVals, hW]
  have hK : pipelineK m k ds1 = pipelineK m k ds2 := by
    rw [pipelineK, pipelineK, hV]
  have hS : pipelineScale m k ds1 = pipelineScale m k ds2 := by
    rw [pipelineScale, pipelineScale, hV]
  have hL : rawL m k ds1 = rawL m k ds2 := by
    rw [rawL, rawL, hK]
  have hRW : rawWidths m k ds1 = rawWidths m k ds2 := by
    rw [rawWidths, rawWidths, hW, hK]
  have hRK : rawKerf m k ds1 = rawKerf m k ds2 := by
    rw [rawKerf, rawKerf, hK]
  have hEL : effL m k ds1 = effL m k ds2 := by
    rw [effL, effL, hK]
  have hEW : effWidths m k ds1 = effWidths m k ds2 := by
    rw [effWidths, effWidths, hW, hK]
  have hP : pipelinePatterns m k ds1 = pipelinePatterns m k ds2 := by
    rw [pipelinePatterns, pipelinePatterns, hEL, hEW]
  rw [optimizeCore, optimizeCore, hQ, hRW, hRK, hL, hP, hS, hW]

theorem optimize_congr (solver : Solver) (m k : Dec) (ds1 ds2 : List Demand)
    (hW : parsedWidths ds1 = parsedWidths ds2)
    (hQ : parsedQty ds1 = parsedQty ds2)
    (hA : ds1.any demandInvalid = ds2.any demandInvalid) :
    optimize_unlimited_stock_gg solver m ds1 k =
      optimize_unlimited_stock_gg solver m ds2 k := by
  rw [optimize_unlimited_stock_gg, optimize_unlimited_stock_gg, hA,
    optimizeCore_congr solver m k ds1 ds2 hW hQ]

/-- C10: the engine coerces each demand quantity with integer truncation
toward zero: replacing every quantity by its truncation gives the same
result for every backend and input; truncation is floor for non-negative
values and ceiling for negative ones; a quantity strictly between `-1` and
`0` truncates to `0` and passes validation (the call succeeds as zero
demand); and quantity `2.9` behaves exactly like quantity `2`. -/
theorem quantity_truncation :
    (∀ (solver : Solver) (m k : Dec) (ds : List Demand),
      optimize_unlimited_stock_gg solver m ds k =
        optimize_unlimited_stock_gg solver m
          (ds.map fun d => ⟨d.width, ⟨d.quantity.trunc, 0⟩⟩) k) ∧
    (∀ d : Dec, d.trunc = if 0 ≤ d.val then ⌊d.val⌋ else ⌈d.val⌉) ∧
    optimize_unlimited_stock_gg solveCutting ⟨1, 0⟩ [⟨⟨1, 0⟩, ⟨-5, -1⟩⟩] ⟨0, 0⟩ =
      .ok (some ⟨0, 0, 0, []⟩) ∧
    optimize_unlimited_stock_gg solveCutting ⟨1, 0⟩ [⟨⟨1, 0⟩, ⟨29, -1⟩⟩] ⟨0, 0⟩ =
      optimize_unlimited_stock_gg solveCutting ⟨1, 0⟩ [⟨⟨1, 0⟩, ⟨2, 0⟩⟩] ⟨0, 0⟩ := by
  have hcong : ∀ (solver : Solver) (m k : Dec) (ds : List Demand),
      optimize_unlimited_stock_gg solver m ds k =
        optimize_unlimited_stock_gg solver m
          (ds.map fun d => ⟨d.width, ⟨d.quantity.trunc, 0⟩⟩) k := by
    intro solver m k ds
    exact (optimize_congr solver m k _ ds (parsedWidths_trunc ds) (parsedQty_trunc ds)
      (any_demandInvalid_trunc ds)).symm
  refine ⟨hcong, dec_trunc_floor, by rfl, ?_⟩
  exact hcong solveCutting ⟨1, 0⟩ ⟨0, 0⟩ [⟨⟨1, 0⟩, ⟨29, -1⟩⟩]

